import Mathlib

/-!
Verification development for the kube-compare core
(pkg/compare: unstructured.go, parsing.go, correlator.go, useroverride.go).

The Go code is shallowly embedded: untyped documents (Go `any` holding
`map[string]any`, `[]any` or scalars) become the inductive type `Val`;
Go maps become association lists; fallible code returns `Option`/`Except`;
places where the Go code would panic (out-of-range slice indexing) are
modelled by `Option`-valued functions returning `none`.
-/

namespace KubeCompare

/-- Untyped document values: the recursive union used by the compare core
(mapping, ordered sequence or scalar). `vnull` models a nil interface
value. -/
inductive Val where
  | vnull : Val
  | vbool : Bool → Val
  | vint : Int → Val
  | vstr : String → Val
  | vmap : List (String × Val) → Val
  | varr : List Val → Val
deriving Repr

namespace Val

/-- Lookup in an association list (Go map read `m[k]`). -/
def assocGet (m : List (String × Val)) (k : String) : Option Val :=
  match m with
  | [] => none
  | (k', v) :: rest => if k' = k then some v else assocGet rest k

/-- Assignment `m[k] = v` on a Go map: replace the binding if the key is
present, append it otherwise. -/
def assocSet (m : List (String × Val)) (k : String) (v : Val) :
    List (String × Val) :=
  match m with
  | [] => [(k, v)]
  | (k', v') :: rest =>
    if k' = k then (k, v) :: rest else (k', v') :: assocSet rest k v

/-- Deletion `delete(m, k)` on a Go map. -/
def assocErase (m : List (String × Val)) (k : String) :
    List (String × Val) :=
  match m with
  | [] => []
  | (k', v') :: rest =>
    if k' = k then assocErase rest k else (k', v') :: assocErase rest k

end Val

/-- Go `strconv.Atoi`: optional sign followed by ASCII digits, rejecting
the empty string, stray characters and values outside the 64-bit signed
range (Go `int`). -/
def goAtoi (s : String) : Option Int :=
  match s.toList with
  | [] => none
  | c :: rest =>
    let digits := if c = '-' ∨ c = '+' then rest else c :: rest
    let sign : Int := if c = '-' then -1 else 1
    if digits = [] then none
    else if digits.all (fun d => '0' ≤ d ∧ d ≤ '9') then
      let n : Int :=
        digits.foldl (fun acc d => acc * 10 + ((d.toNat : Int) - ('0'.toNat : Int))) 0
      let v := sign * n
      if v < -(2 ^ 63) ∨ 2 ^ 63 - 1 < v then none else some v
    else none

/-- Embedding of `NestedField` (unstructured.go). The result is
`(value, present, isError)`; the outer `Option` is `none` exactly where
the Go code would panic (the slice access `v[index]`, reached only when
`len(v) < index`). The inverted bounds check `len(v) >= index` of the
source is kept as written. -/
def nestedField (val : Val) (fields : List String) :
    Option (Val × Bool × Bool) :=
  match fields with
  | [] => some (val, true, false)
  | field :: rest =>
    match val with
    | .vnull => some (.vnull, false, false)
    | .vmap m =>
      match Val.assocGet m field with
      | none => some (.vnull, false, false)
      | some x => nestedField x rest
    | .varr v =>
      match goAtoi field with
      | none => some (.vnull, false, true)
      | some index =>
        if (v.length : Int) ≥ index then some (.vnull, false, false)
        else none
    | _ => some (.vnull, false, true)

/-- Embedding of `removeField` (unstructured.go): the terminal step of a
removal. Returns the updated object and the emptiness flag; `none` marks
a Go panic (`v[:index]` with a negative index). -/
def removeFieldGo (obj : Val) (field : String) : Option (Val × Bool) :=
  match obj with
  | .vmap m =>
    let m' := Val.assocErase m field
    some (.vmap m', m'.isEmpty)
  | .varr v =>
    match goAtoi field with
    | none =>
      -- Atoi failed: Go leaves index = 0 and the `err != nil` test
      -- sends it into the splice branch, removing element 0.
      let res := v.drop 1
      some (.varr res, res.isEmpty)
    | some index =>
      if (v.length : Int) > index then
        if index < 0 then none
        else
          let res := v.take index.toNat ++ v.drop (index.toNat + 1)
          some (.varr res, res.isEmpty)
      else some (obj, false)
  | _ => some (obj, false)

/-- Embedding of `removeNestedFieldBacktrackEmpty` (unstructured.go).
`none` marks a Go panic: the empty field list (`fields[0]` on an empty
slice) and the inner access `val[index]` with a negative index. The
source's splice-after-emptying keeps its dead reslice: after
`val = val[:index]` the guard `len(val) > index+1` is never true, so the
tail after `index` is dropped. -/
def removeNestedGo (obj : Val) (fields : List String) :
    Option (Val × Bool) :=
  match fields with
  | [] => none
  | [field] => removeFieldGo obj field
  | field :: rest =>
    match obj with
    | .vmap m =>
      match Val.assocGet m field with
      | none => some (obj, false)
      | some v =>
        match removeNestedGo v rest with
        | none => none
        | some (x, empty) =>
          let m1 := Val.assocSet m field x
          let m2 := if empty then Val.assocErase m1 field else m1
          some (.vmap m2, m2.isEmpty)
    | .varr v =>
      match goAtoi field with
      | none => some (obj, false)
      | some index =>
        if (v.length : Int) ≤ index then some (obj, false)
        else if index < 0 then none
        else
          match v.get? index.toNat with
          | none => none
          | some elem =>
            match removeNestedGo elem rest with
            | none => none
            | some (x, empty) =>
              let v1 := v.set index.toNat x
              let v2 := if empty then v1.take index.toNat else v1
              some (.varr v2, v2.isEmpty)
    | _ => some (obj, false)

/-- Embedding of `RemoveNestedField` (unstructured.go): discards the
emptiness flag. -/
def removeNestedField (obj : Val) (fields : List String) : Option Val :=
  (removeNestedGo obj fields).map Prod.fst

/-- Removing a set of paths: `RemoveNestedField` folded over the path
list, as the normalization step does for every omitted path. -/
def removeAll (obj : Val) (paths : List (List String)) : Option Val :=
  match paths with
  | [] => some obj
  | p :: rest =>
    match removeNestedField obj p with
    | none => none
    | some obj' => removeAll obj' rest

/-- A field list is index-safe when every segment that parses as an
integer is nonnegative (Go panics on negative slice indexes). -/
def IndexSafe (fields : List String) : Prop :=
  ∀ f ∈ fields, ∀ n : Int, goAtoi f = some n → 0 ≤ n

instance (fields : List String) : Decidable (IndexSafe fields) := by
  unfold IndexSafe
  infer_instance

mutual

/-- Documents made only of mappings and scalars (no sequences). -/
def NoSeq : Val → Bool
  | .vmap m => noSeqEntries m
  | .varr _ => false
  | _ => true

/-- Predicate `NoSeq` for every value of a mapping's entry list. -/
def noSeqEntries : List (String × Val) → Bool
  | [] => true
  | (_, v) :: r => NoSeq v && noSeqEntries r

end

/-! Summary / missing-required computation (parsing.go). Reference
templates are identified here by their `Path`; a Component keeps the
paths of its required and optional templates, and the matched-template
map becomes a predicate (a Go map read returns `false` for missing
keys). The `Type` descriptor field is the raw string of the document:
the Go constants are `Required` and `Optional`, and an omitted field
decodes to the empty string. -/

/-- A `Component` of a reference part (parsing.go). `ctype` is the
`Type` field. -/
structure Component where
  name : String
  ctype : String
  requiredTemplates : List String
  optionalTemplates : List String

/-- A reference `Part` (parsing.go). -/
structure Part where
  name : String
  components : List Component

/-- Embedding of `Component.getMissingCRs`: the paths of required
templates that were not matched. -/
def Component.getMissingCRs (c : Component) (matched : String → Bool) : List String :=
  c.requiredTemplates.filter (fun p => !(matched p))

/-- Embedding of the per-component loop body of `Part.getMissingCRs`:
components are reported when `len(compCRs) > 0 && (Type == Required ||
(Type == Optional && len(compCRs) != len(RequiredTemplates)))`. -/
def getMissingCRsAux (comps : List Component) (matched : String → Bool) :
    List (String × List String) × Nat :=
  match comps with
  | [] => ([], 0)
  | c :: rest =>
    let compCRs := c.getMissingCRs matched
    let acc := getMissingCRsAux rest matched
    if 0 < compCRs.length ∧ (c.ctype = "Required" ∨
        (c.ctype = "Optional" ∧ compCRs.length ≠ c.requiredTemplates.length)) then
      ((c.name, compCRs) :: acc.1, compCRs.length + acc.2)
    else acc

/-- Embedding of `Part.getMissingCRs` (parsing.go): the reporting
components with their missing template paths, and the total count. -/
def Part.getMissingCRs (p : Part) (matched : String → Bool) :
    List (String × List String) × Nat :=
  getMissingCRsAux p.components matched

/-- The claim's reporting condition, following the spec's words: the
Component is (a) Required with at least one unmatched required
template, or (b) Optional with at least one but not all required
templates matched. Stated for comparison with the source condition in
`getMissingCRsAux`. -/
def specReports (c : Component) (matched : String → Bool) : Bool :=
  (c.ctype == "Required" && c.requiredTemplates.any (fun p => !(matched p))) ||
  (c.ctype == "Optional" && c.requiredTemplates.any (fun p => matched p) &&
    c.requiredTemplates.any (fun p => !(matched p)))

/-! Generic association lists for the other Go maps of the code
(fields-to-omit items, correlation buckets). -/

/-- Go map read `m[k]` for an arbitrary value type. -/
def agets {α : Type} (m : List (String × α)) (k : String) : Option α :=
  match m with
  | [] => none
  | (k', v) :: rest => if k' = k then some v else agets rest k

/-- Go map assignment `m[k] = v` for an arbitrary value type. -/
def asets {α : Type} (m : List (String × α)) (k : String) (v : α) :
    List (String × α) :=
  match m with
  | [] => [(k, v)]
  | (k', v') :: rest =>
    if k' = k then (k, v) :: rest else (k', v') :: asets rest k v

/-! Path parsing (splitFields, part_000 variant with regex segments).
Strings are processed as character lists. The Go regular expression
used to find quoted runs is `(?U:(["|` + "backtick" + `].*["|...]))`:
an ungreedy pair of characters from the class containing the double
quote, the pipe and the backtick, with `.*` unable to cross a newline.
Regex compilation is external (Go regexp); it is abstracted by a
`compile : String → Bool` success predicate, since the parser only
branches on compilation success and never inspects the compiled
value. -/

/-- The backtick character (written by code to keep it out of the
source text). -/
def backtickChar : Char := Char.ofNat 96

/-- Membership in the Go pattern's character class `["|`...]`: a double
quote, a pipe, or a backtick (the pipe is part of the class). -/
def isQuoteChar (c : Char) : Bool :=
  (c == '"') || (c == '|') || (c == backtickChar)

/-- Scan for the closing quote-class character: the ungreedy `.*`
stops at the first one and cannot cross a newline. Returns
`(middle, closer, suffix)`. -/
def scanClose : List Char → Option (List Char × Char × List Char)
  | [] => none
  | c :: rest =>
    if isQuoteChar c then some ([], c, rest)
    else if c = '\n' then none
    else
      match scanClose rest with
      | none => none
      | some (mid, q, post) => some (c :: mid, q, post)

/-- Leftmost match of the quoted-run pattern: `(prefix, match, suffix)`. -/
def findFirstMatch : List Char → Option (List Char × List Char × List Char)
  | [] => none
  | c :: rest =>
    if isQuoteChar c then
      match scanClose rest with
      | some (mid, q, post) => some ([], c :: (mid ++ [q]), post)
      | none =>
        match findFirstMatch rest with
        | none => none
        | some (pre, m, post) => some (c :: pre, m, post)
    else
      match findFirstMatch rest with
      | none => none
      | some (pre, m, post) => some (c :: pre, m, post)

/-- All non-overlapping matches in order (`FindAllStringSubmatch`),
with fuel for termination; `length + 1` fuel always suffices since each
match consumes at least two characters. -/
def findAllMatches (fuel : Nat) (s : List Char) : List (List Char) :=
  match fuel with
  | 0 => []
  | fuel2 + 1 =>
    match findFirstMatch s with
    | none => []
    | some (_, m, post) => m :: findAllMatches fuel2 post

/-- Embedding of `strings.Replace(s, pat, rep, 1)`: replace the first occurrence. -/
def replaceFirst (s pat rep : List Char) : List Char :=
  match s with
  | [] => []
  | c :: rest =>
    if pat.isPrefixOf s then rep ++ s.drop pat.length
    else c :: replaceFirst rest pat rep

/-- Embedding of `strings.Split(s, ".")` on character lists. -/
def splitOnDot : List Char → List (List Char)
  | [] => [[]]
  | c :: rest =>
    let r := splitOnDot rest
    if c = '.' then [] :: r
    else
      match r with
      | [] => [[c]]
      | seg :: segs => (c :: seg) :: segs

/-- The placeholder text `cluster-compare-entry-<n>`. -/
def placeholder (n : Nat) : List Char :=
  ("cluster-compare-entry-" ++ toString n).toList

/-- Step 2 of `splitFields`: replace each matched text by its numbered
placeholder (first occurrence), building the `replaced` table. -/
def substituteMatches : List (List Char) → Nat → List Char →
    List (Nat × List Char) × List Char
  | [], _, cur => ([], cur)
  | m :: ms, n, cur =>
    let cur2 := replaceFirst cur m (placeholder n)
    let res := substituteMatches ms (n + 1) cur2
    ((n, m) :: res.1, res.2)

/-- Lookup of a segment in the `replaced` table (`replaced[e]`). -/
def lookupReplaced (tab : List (Nat × List Char)) (seg : List Char) :
    Option (List Char) :=
  match tab with
  | [] => none
  | (n, orig) :: rest =>
    if seg = placeholder n then some orig else lookupReplaced rest seg

/-- Embedding of `strings.HasPrefix(s, c)` for a single character. -/
def startsWithC (s : List Char) (c : Char) : Bool :=
  match s with
  | [] => false
  | a :: _ => a == c

/-- Embedding of `strings.HasSuffix(s, c)` for a single character. -/
def endsWithC (s : List Char) (c : Char) : Bool :=
  startsWithC s.reverse c

/-- Embedding of `strings.Trim(s, c)`: strip the character from both ends. -/
def trimChar (c : Char) (s : List Char) : List Char :=
  ((s.dropWhile (fun a => a == c)).reverse.dropWhile (fun a => a == c)).reverse

/-- A path part: a literal segment, or a regex segment (`regex` field
non-nil in the source exactly when compilation succeeded). -/
structure PathPart where
  part : String
  isRegex : Bool
deriving Repr, DecidableEq

/-- Step 4 of `splitFields`: substitute placeholders back; a
backtick-delimited run compiles as a regex (error on failure), a
quoted run is stripped of its double quotes. -/
def resolveSegments (compile : String → Bool) (tab : List (Nat × List Char)) :
    List (List Char) → Except String (List PathPart)
  | [] => .ok []
  | seg :: rest =>
    match lookupReplaced tab seg with
    | none =>
      match resolveSegments compile tab rest with
      | .error e => .error e
      | .ok parts => .ok (⟨seg.asString, false⟩ :: parts)
    | some orig =>
      if startsWithC orig backtickChar && endsWithC orig backtickChar then
        let body := (trimChar backtickChar orig).asString
        if compile body then
          match resolveSegments compile tab rest with
          | .error e => .error e
          | .ok parts => .ok (⟨body, true⟩ :: parts)
        else .error ("failed to compile regex for part " ++ body)
      else
        match resolveSegments compile tab rest with
        | .error e => .error e
        | .ok parts => .ok (⟨(trimChar '"' orig).asString, false⟩ :: parts)

/-- Embedding of `splitFields` (part_000): strip leading dots, find
quoted runs, replace them by placeholders, fail if quote pairs remain,
split on dots and substitute back. -/
def splitFields (compile : String → Bool) (path : String) :
    Except String (List PathPart) :=
  let cs := path.toList.dropWhile (fun c => c = '.')
  let ms := findAllMatches (cs.length + 1) cs
  if ms = [] then
    .ok ((splitOnDot cs).map (fun seg => ⟨seg.asString, false⟩))
  else
    let sub := substituteMatches ms 0 cs
    if findAllMatches (sub.2.length + 1) sub.2 ≠ [] then
      .error ("failed to remove quotes from path " ++ path)
    else
      resolveSegments compile sub.1 (splitOnDot sub.2)

/-! Fields-to-omit processing (`FieldsToOmit.process`, part_000; the
same steps appear in `getReference`, parsing.go). -/

/-- The reserved built-in key. -/
def builtInPathsKey : String := "cluster-compare-built-in"

/-- The seeded built-in omission paths. -/
def builtInPaths : List String :=
  ["metadata.resourceVersion",
   "metadata.generation",
   "metadata.uid",
   "metadata.generateName",
   "metadata.creationTimestamp",
   "metadata.finalizers",
   "\"kubectl.kubernetes.io/last-applied-configuration\"",
   "metadata.annotations.\"kubectl.kubernetes.io/last-applied-configuration\"",
   "status"]

/-- Decoded `fieldsToOmit` section of a reference descriptor. -/
structure FieldsToOmit where
  defaultKey : String
  items : List (String × List String)

/-- Result of a successful `FieldsToOmit.process`: the mutated
structure plus the warnings logged on the way. -/
structure FieldsToOmitResult where
  defaultKey : String
  items : List (String × List String)
  processedItems : List (String × List (List PathPart))
  warnings : List String

/-- The warning for a user-supplied reserved key. -/
def fieldsToOmitBuiltInOverwritten (k : String) : String :=
  "fieldsToOmit.Map contains the key " ++ k ++ ", this will be overwritten with default values"

/-- Item paths pre-parsed to `Path`s; malformed paths are logged and
skipped (`NewPath` error → continue). -/
def processItems (compile : String → Bool) :
    List (String × List String) → List (String × List (List PathPart))
  | [] => []
  | (k, ps) :: rest =>
    (k, ps.filterMap (fun p => (splitFields compile p).toOption)) ::
      processItems compile rest

/-- Embedding of `FieldsToOmit.process` (part_000; the identical steps
of `getReference` in parsing.go): warn if the user supplied the
reserved key, overwrite it with the seed, default an empty
`defaultKey` to the reserved key, fail when the default key is absent
from the items, then pre-parse all paths. -/
def fieldsToOmitProcess (compile : String → Bool) (toOmit : FieldsToOmit) :
    Except String FieldsToOmitResult :=
  let warnings :=
    if (agets toOmit.items builtInPathsKey).isSome then
      [fieldsToOmitBuiltInOverwritten builtInPathsKey]
    else []
  let items2 := asets toOmit.items builtInPathsKey builtInPaths
  let dk := if toOmit.defaultKey = "" then builtInPathsKey else toOmit.defaultKey
  if (agets items2 dk).isSome then
    .ok ⟨dk, items2, processItems compile items2, warnings⟩
  else
    .error ("fieldsToOmit defaultKey " ++ dk ++ " not found in items")

/-! Group correlation (correlator.go). A correlation entry is reduced
to its name and its rendered metadata document. `NestedString` is the
upstream (map-only, correctly bounded) traversal used by
`createGroupHashFunc`. -/

/-- A correlation entry: template name and rendered metadata. -/
structure CTemplate where
  name : String
  metadata : Val
deriving Repr

/-- Embedding of `unstructured.NestedString`: walk mappings by the field names and
require a final string value; anything else is a miss or an error,
both of which make the hash function fail. -/
def nestedStringOk (obj : Val) : List String → Option String
  | [] =>
    match obj with
    | .vstr s => some s
    | _ => none
  | f :: rest =>
    match obj with
    | .vmap m =>
      match Val.assocGet m f with
      | none => none
      | some v => nestedStringOk v rest
    | _ => none

/-- The values of a field group on a resource; `none` models the error
return of `createGroupHashFunc` (missing field, empty value, or
non-string value). The `replaceEmptyWith` parameter of the source is
unused by it and omitted. -/
def groupHashValues (fieldGroup : List (List String)) (cr : Val) :
    Option (List String) :=
  match fieldGroup with
  | [] => some []
  | fields :: rest =>
    match nestedStringOk cr fields with
    | none => none
    | some v =>
      if v = "" then none
      else
        match groupHashValues rest cr with
        | none => none
        | some vs => some (v :: vs)

/-- Embedding of the hash function built by `createGroupHashFunc`:
`strings.Join(values, "_")`. -/
def groupHashFunc (fieldGroup : List (List String)) (cr : Val) : Option String :=
  match groupHashValues fieldGroup cr with
  | none => none
  | some vs => some (String.intercalate "_" vs)

/-- The `<no value>` sentinel. -/
def noValue : String := "<no value>"

/-- Embedding of `strings.Contains(s, noValue)`. -/
def containsNoValue (s : String) : Bool :=
  decide (noValue.toList <:+: s.toList)

/-- Whether `ClaimTemplates` keeps a template for this group: the hash
succeeds and does not contain the `<no value>` sentinel. -/
def keepsTemplate (group : List (List String)) (t : CTemplate) : Bool :=
  match groupHashFunc group t.metadata with
  | none => false
  | some h => !(containsNoValue h)

/-- Append a template to its hash bucket, keeping arrival order. -/
def bucketCons (h : String) (t : CTemplate) :
    List (String × List CTemplate) → List (String × List CTemplate)
  | [] => [(h, [t])]
  | (h', ts) :: rest =>
    if h' = h then (h, t :: ts) :: rest else (h', ts) :: bucketCons h t rest

/-- Embedding of `FieldCorrelator.ClaimTemplates`: every template whose
hash fails or contains the sentinel is discarded (returned for coarser
groups); the others are indexed by hash. Returns `(objects, discarded)`. -/
def claimTemplatesGo (group : List (List String)) :
    List CTemplate → List (String × List CTemplate) × List CTemplate
  | [] => ([], [])
  | t :: rest =>
    let res := claimTemplatesGo group rest
    if keepsTemplate group t then
      match groupHashFunc group t.metadata with
      | none => (res.1, t :: res.2)
      | some h => (bucketCons h t res.1, res.2)
    else (res.1, t :: res.2)

/-- One field correlator: its field group and its hash index. -/
structure FieldCorrelator where
  fields : List (List String)
  objects : List (String × List CTemplate)

/-- Embedding of the `NewGroupCorrelator` loop: each group claims
templates; a group that takes nothing is skipped; claimed templates
are removed from the pool offered to the following (coarser) groups.
(The early `break` on an empty pool is behaviorally the same as
skipping every later group, since an empty pool can never shrink.) -/
def buildFieldCorrelators :
    List (List (List String)) → List CTemplate → List FieldCorrelator
  | [], _ => []
  | g :: groups, objects =>
    let res := claimTemplatesGo g objects
    if res.2.length = objects.length then
      buildFieldCorrelators groups objects
    else
      ⟨g, res.1⟩ :: buildFieldCorrelators groups res.2

/-- Stable insertion into a list of groups sorted by descending arity
(the `sort.Slice` of the source orders groups by descending length). -/
def insertByLen (g : List (List String)) :
    List (List (List String)) → List (List (List String))
  | [] => [g]
  | h :: t => if g.length > h.length then g :: h :: t else h :: insertByLen g t

/-- Sort field groups by descending arity. -/
def sortGroupsDesc : List (List (List String)) → List (List (List String))
  | [] => []
  | g :: gs => insertByLen g (sortGroupsDesc gs)

/-- Embedding of `NewGroupCorrelator`: sort the groups by descending
arity, then run the claiming loop. -/
def newGroupCorrelator (fieldGroups : List (List (List String)))
    (objects : List CTemplate) : List FieldCorrelator :=
  buildFieldCorrelators (sortGroupsDesc fieldGroups) objects

/-- Outcome of a correlator match. -/
inductive MatchResult where
  | matched (ts : List CTemplate)
  | unknownMatch
  | multipleMatches (ts : List CTemplate)
  | hashError
deriving Repr

/-- Embedding of `FieldCorrelator.Match`. -/
def fieldCorrelatorMatch (fc : FieldCorrelator) (r : Val) : MatchResult :=
  match groupHashFunc fc.fields r with
  | none => .hashError
  | some h =>
    match agets fc.objects h with
    | none => .unknownMatch
    | some objs =>
      if objs.length > 1 then .multipleMatches objs else .matched objs

/-- The loop of `GroupCorrelator.Match`: try correlators from most to
least specific, remember the first `MultipleMatches`, return the first
unique hit, and fall back to the remembered `MultipleMatches` or
`UnknownMatch`. -/
def groupMatchAux (r : Val) :
    List FieldCorrelator → Option (List CTemplate) → MatchResult
  | [], some ts => .multipleMatches ts
  | [], none => .unknownMatch
  | fc :: rest, acc =>
    match fieldCorrelatorMatch fc r with
    | .matched ts =>
      if ts.length = 1 then .matched ts else groupMatchAux r rest acc
    | .multipleMatches ts =>
      groupMatchAux r rest (if acc.isSome then acc else some ts)
    | _ => groupMatchAux r rest acc

/-- Embedding of `GroupCorrelator.Match`. -/
def groupCorrelatorMatch (fcs : List FieldCorrelator) (r : Val) : MatchResult :=
  groupMatchAux r fcs none

/-- Embedding of `FieldCorrelator.ValidateTemplates`: the buckets with
more than one template, which are reported (and logged as warnings by
`NewGroupCorrelator`). -/
def validateTemplates (fc : FieldCorrelator) : List (List CTemplate) :=
  (fc.objects.filter (fun kv => kv.2.length > 1)).map (fun kv => kv.2)

/-- A template occurs in some hash bucket of an index. -/
def memBuckets (t : CTemplate) (objs : List (String × List CTemplate)) : Prop :=
  ∃ kv ∈ objs, t ∈ kv.2

/-- Concrete duplicate-bucket scenario: two templates with the same
namespace and kind but different names. -/
def dupT1 : CTemplate :=
  ⟨"t1", Val.vmap [("kind", Val.vstr "Pod"),
    ("metadata", Val.vmap [("namespace", Val.vstr "ns"), ("name", Val.vstr "a")])]⟩

/-- Second template of the duplicate-bucket scenario. -/
def dupT2 : CTemplate :=
  ⟨"t2", Val.vmap [("kind", Val.vstr "Pod"),
    ("metadata", Val.vmap [("namespace", Val.vstr "ns"), ("name", Val.vstr "b")])]⟩

/-- Field groups of the scenario: the fine group namespace+kind (where
the two templates collide) and the coarser group name (where they
differ). -/
def dupGroups : List (List (List String)) :=
  [[["metadata", "namespace"], ["kind"]], [["metadata", "name"]]]

/-- The field correlator the scenario builds: the single fine-group
correlator holding both templates in one bucket. -/
def dupFC : FieldCorrelator :=
  ⟨[["metadata", "namespace"], ["kind"]], [("ns_Pod", [dupT1, dupT2])]⟩

/-- A resource equal to the first template's metadata. -/
def dupResource : Val :=
  Val.vmap [("kind", Val.vstr "Pod"),
    ("metadata", Val.vmap [("namespace", Val.vstr "ns"), ("name", Val.vstr "a")])]

/-! User overrides (useroverride.go, go-template variant). The external
collaborators (RFC 7396 merge patch, JSON-patch decoding, go template
rendering, YAML decoding of the rendered override) are parameters: the
code only branches on their success and never inspects their internals.
The RFC 6902 op application itself is modelled from the spec. -/

/-- A decoded JSON-patch operation. -/
structure PatchOp where
  op : String
  path : List String
  value : Val

/-- Walk a document along JSON-pointer tokens (mappings by key,
sequences by index). -/
def jsonGet (d : Val) : List String → Option Val
  | [] => some d
  | t :: rest =>
    match d with
    | .vmap m =>
      match Val.assocGet m t with
      | none => none
      | some child => jsonGet child rest
    | .varr v =>
      match t.toNat? with
      | none => none
      | some i =>
        match v.get? i with
        | none => none
        | some child => jsonGet child rest
    | _ => none

/-- Replace the value at a pointer; fails when the path does not
exist. -/
def jsonReplace (d : Val) (toks : List String) (nv : Val) : Option Val :=
  match toks with
  | [] => some nv
  | t :: rest =>
    match d with
    | .vmap m =>
      match Val.assocGet m t with
      | none => none
      | some child =>
        match jsonReplace child rest nv with
        | none => none
        | some c => some (.vmap (Val.assocSet m t c))
    | .varr v =>
      match t.toNat? with
      | none => none
      | some i =>
        match v.get? i with
        | none => none
        | some child =>
          match jsonReplace child rest nv with
          | none => none
          | some c => some (.varr (v.set i c))
    | _ => none

/-- Remove the value at a pointer; fails when the path does not
exist. -/
def jsonRemoveAt (d : Val) : List String → Option Val
  | [] => none
  | [t] =>
    match d with
    | .vmap m =>
      match Val.assocGet m t with
      | none => none
      | some _ => some (.vmap (Val.assocErase m t))
    | .varr v =>
      match t.toNat? with
      | none => none
      | some i =>
        if i < v.length then some (.varr (v.take i ++ v.drop (i + 1))) else none
    | _ => none
  | t :: rest =>
    match d with
    | .vmap m =>
      match Val.assocGet m t with
      | none => none
      | some child =>
        match jsonRemoveAt child rest with
        | none => none
        | some c => some (.vmap (Val.assocSet m t c))
    | .varr v =>
      match t.toNat? with
      | none => none
      | some i =>
        match v.get? i with
        | none => none
        | some child =>
          match jsonRemoveAt child rest with
          | none => none
          | some c => some (.varr (v.set i c))
    | _ => none

/-- Add a value at a pointer (mapping keys are upserted; a sequence
index inserts, `-` appends). -/
def jsonAdd (d : Val) (toks : List String) (nv : Val) : Option Val :=
  match toks with
  | [] => some nv
  | [t] =>
    match d with
    | .vmap m => some (.vmap (Val.assocSet m t nv))
    | .varr v =>
      if t = "-" then some (.varr (v ++ [nv]))
      else
        match t.toNat? with
        | none => none
        | some i =>
          if i ≤ v.length then some (.varr (v.take i ++ nv :: v.drop i)) else none
    | _ => none
  | t :: rest =>
    match d with
    | .vmap m =>
      match Val.assocGet m t with
      | none => none
      | some child =>
        match jsonAdd child rest nv with
        | none => none
        | some c => some (.vmap (Val.assocSet m t c))
    | .varr v =>
      match t.toNat? with
      | none => none
      | some i =>
        match v.get? i with
        | none => none
        | some child =>
          match jsonAdd child rest nv with
          | none => none
          | some c => some (.varr (v.set i c))
    | _ => none

/-- Modelled from the spec: one RFC 6902 operation applied to a
document (the evanphx json-patch library is external to the
repository); an op whose path cannot be resolved, or an unsupported
op, fails. -/
def applyOp (d : Val) (op : PatchOp) : Except String Val :=
  if op.op = "replace" then
    match jsonReplace d op.path op.value with
    | none => .error ("replace operation does not apply: " ++ String.intercalate "/" op.path)
    | some d2 => .ok d2
  else if op.op = "add" then
    match jsonAdd d op.path op.value with
    | none => .error ("add operation does not apply: " ++ String.intercalate "/" op.path)
    | some d2 => .ok d2
  else if op.op = "remove" then
    match jsonRemoveAt d op.path with
    | none => .error ("remove operation does not apply: " ++ String.intercalate "/" op.path)
    | some d2 => .ok d2
  else .error ("unexpected kind: " ++ op.op)

/-- Modelled from the spec: the ordered op list applied atomically —
each op runs on the previous op's output and any failure fails the
whole patch. -/
def applyOps (d : Val) : List PatchOp → Except String Val
  | [] => .ok d
  | op :: rest =>
    match applyOp d op with
    | .error e => .error e
    | .ok d2 => applyOps d2 rest

/-- The external codecs `applyPatch` relies on: RFC 7396 merge patch,
JSON-patch decoding, go-template rendering (with the resource as
data), and YAML decoding of a rendered override. -/
structure Codecs where
  mergePatchFn : Val → String → Except String Val
  decodeOps : String → Except String (List PatchOp)
  render : String → Val → Except String String
  parseUO : String → Except String (String × String)

/-- A decoded user override: correlation metadata, patch type and
patch payload. -/
structure UserOverride where
  name : String
  apiVersion : String
  kind : String
  nspace : String
  utype : String
  patch : String

/-- One step of `applyPatch` (useroverride.go): the type switch, with
the `go-template` recursion abstracted into `rec`. The rendered
template output decodes to a nested `(type, patch)` pair. -/
def applyPatchF (c : Codecs) (rec : String → String → Val → Except String Val)
    (ptype patch : String) (resource : Val) : Except String Val :=
  if ptype = "mergepatch" then
    match c.mergePatchFn resource patch with
    | .error e => .error ("failed to apply user patch: " ++ e)
    | .ok d => .ok d
  else if ptype = "rfc6902" then
    match c.decodeOps patch with
    | .error e => .error ("failed to decode user patch: " ++ e)
    | .ok ops =>
      match applyOps resource ops with
      | .error e => .error ("failed to apply user patch: " ++ e)
      | .ok d => .ok d
  else if ptype = "go-template" then
    match c.render patch resource with
    | .error e => .error ("failed to execute patch template: " ++ e)
    | .ok rendered =>
      match c.parseUO rendered with
      | .error e => .error ("failed to unmarshal templated patch: " ++ e)
      | .ok uo => rec uo.1 uo.2 resource
  else .error ("unknown patch type: " ++ ptype)

/-- Embedding of `applyPatch` (useroverride.go). The `fuel` argument
is the termination device for the unbounded `go-template` recursion of
the source. -/
def applyPatch (c : Codecs) : Nat → String → String → Val → Except String Val
  | 0, _, _, _ => .error "template recursion limit"
  | fuel + 1, ptype, patch, resource =>
    applyPatchF c (applyPatch c fuel) ptype patch resource

/-- Embedding of `UserOverride.Apply`: on any patch failure the
original resource is returned together with the error; on success the
patched document replaces it (the value model makes the final
unmarshal infallible). -/
def uoApply (c : Codecs) (fuel : Nat) (o : UserOverride) (resource : Val) :
    Val × Option String :=
  match applyPatch c fuel o.utype o.patch resource with
  | .error e => (resource, some e)
  | .ok modified => (modified, none)

end KubeCompare

namespace KubeCompare

namespace Val

theorem assocGet_assocSet (m : List (String × Val)) (k : String) (v : Val) :
    assocGet (assocSet m k v) k = some v := by
  induction m with
  | nil => simp [assocGet, assocSet]
  | cons kv rest ih =>
    obtain ⟨k', v'⟩ := kv
    by_cases h : k' = k
    · simp [assocGet, assocSet, h]
    · simp [assocGet, assocSet, h, ih]

theorem assocGet_assocSet_ne (m : List (String × Val)) (k k' : String) (v : Val)
    (h : k' ≠ k) : assocGet (assocSet m k v) k' = assocGet m k' := by
  induction m with
  | nil =>
    have hk : ¬(k = k') := fun h2 => h h2.symm
    simp [assocGet, assocSet, hk]
  | cons kv rest ih =>
    obtain ⟨k0, v0⟩ := kv
    by_cases h0 : k0 = k
    · subst h0
      have hk : ¬(k0 = k') := fun h2 => h h2.symm
      simp [assocGet, assocSet, hk]
    · simp only [assocSet, if_neg h0]
      by_cases h1 : k0 = k'
      · simp [assocGet, h1]
      · simp [assocGet, h1, ih]

theorem assocSet_same (m : List (String × Val)) (k : String) (v : Val)
    (h : assocGet m k = some v) : assocSet m k v = m := by
  induction m with
  | nil => simp [assocGet] at h
  | cons kv rest ih =>
    obtain ⟨k0, v0⟩ := kv
    by_cases h0 : k0 = k
    · subst h0
      simp [assocGet] at h
      simp [assocSet, h]
    · simp [assocGet, h0] at h
      simp [assocSet, h0, ih h]

theorem assocGet_of_assocSet_eq (m : List (String × Val)) (k : String) (v : Val)
    (h : assocSet m k v = m) : assocGet m k = some v := by
  induction m with
  | nil => simp [assocSet] at h
  | cons kv rest ih =>
    obtain ⟨k0, v0⟩ := kv
    by_cases h0 : k0 = k
    · subst h0
      simp [assocSet] at h
      simp [assocGet, h]
    · simp [assocSet, h0] at h
      simp [assocGet, h0, ih h]

theorem assocGet_assocErase_self (m : List (String × Val)) (k : String) :
    assocGet (assocErase m k) k = none := by
  induction m with
  | nil => simp [assocGet, assocErase]
  | cons kv rest ih =>
    obtain ⟨k0, v0⟩ := kv
    by_cases h0 : k0 = k
    · simpa [assocErase, h0] using ih
    · simpa [assocErase, assocGet, h0] using ih

theorem assocGet_assocErase_ne (m : List (String × Val)) (k k' : String)
    (h : k' ≠ k) : assocGet (assocErase m k) k' = assocGet m k' := by
  induction m with
  | nil => simp [assocGet, assocErase]
  | cons kv rest ih =>
    obtain ⟨k0, v0⟩ := kv
    by_cases h0 : k0 = k
    · subst h0
      have hk : ¬(k0 = k') := fun h2 => h h2.symm
      simp [assocErase, assocGet, hk, ih]
    · by_cases h1 : k0 = k'
      · simp [assocErase, assocGet, h0, h1, h, ih]
      · simp [assocErase, assocGet, h0, h1, ih]

theorem assocErase_length_le (m : List (String × Val)) (k : String) :
    (assocErase m k).length ≤ m.length := by
  induction m with
  | nil => simp [assocErase]
  | cons kv rest ih =>
    obtain ⟨k0, v0⟩ := kv
    by_cases h0 : k0 = k
    · simp only [assocErase, if_pos h0]
      exact Nat.le_succ_of_le ih
    · simp only [assocErase, if_neg h0, List.length_cons]
      exact Nat.succ_le_succ ih

theorem assocErase_assocErase (m : List (String × Val)) (k : String) :
    assocErase (assocErase m k) k = assocErase m k := by
  induction m with
  | nil => simp [assocErase]
  | cons kv rest ih =>
    obtain ⟨k0, v0⟩ := kv
    by_cases h0 : k0 = k
    · simp [assocErase, h0, ih]
    · simp [assocErase, h0, ih]

theorem assocErase_assocSet (m : List (String × Val)) (k : String) (v : Val) :
    assocErase (assocSet m k v) k = assocErase m k := by
  induction m with
  | nil => simp [assocErase, assocSet]
  | cons kv rest ih =>
    obtain ⟨k0, v0⟩ := kv
    by_cases h0 : k0 = k
    · simp [assocSet, assocErase, h0]
    · simp [assocSet, assocErase, h0, ih]

theorem assocErase_of_get_none (m : List (String × Val)) (k : String)
    (h : assocGet m k = none) : assocErase m k = m := by
  induction m with
  | nil => simp [assocErase]
  | cons kv rest ih =>
    obtain ⟨k0, v0⟩ := kv
    by_cases h0 : k0 = k
    · simp [assocGet, h0] at h
    · simp [assocGet, h0] at h
      simp [assocErase, h0, ih h]

theorem assocErase_length_lt (m : List (String × Val)) (k : String) (v : Val)
    (h : assocGet m k = some v) : (assocErase m k).length < m.length := by
  induction m with
  | nil => simp [assocGet] at h
  | cons kv rest ih =>
    obtain ⟨k0, v0⟩ := kv
    by_cases h0 : k0 = k
    · simp only [assocErase, if_pos h0, List.length_cons]
      exact Nat.lt_succ_of_le (assocErase_length_le rest k)
    · simp [assocGet, h0] at h
      simp only [assocErase, if_neg h0, List.length_cons]
      exact Nat.succ_lt_succ (ih h)

theorem assocGet_none_of_erase_eq (m : List (String × Val)) (k : String)
    (h : assocErase m k = m) : assocGet m k = none := by
  cases hg : assocGet m k with
  | none => rfl
  | some v =>
    have := assocErase_length_lt m k v hg
    rw [h] at this
    exact absurd this (lt_irrefl _)

end Val

theorem noSeqEntries_get (m : List (String × Val)) (k : String) (v : Val)
    (hm : noSeqEntries m = true) (h : Val.assocGet m k = some v) : NoSeq v = true := by
  induction m with
  | nil => simp [Val.assocGet] at h
  | cons kv rest ih =>
    obtain ⟨k0, v0⟩ := kv
    simp only [noSeqEntries, Bool.and_eq_true] at hm
    by_cases h0 : k0 = k
    · simp [Val.assocGet, h0] at h
      simpa [← h] using hm.1
    · simp [Val.assocGet, h0] at h
      exact ih hm.2 h

theorem noSeqEntries_set (m : List (String × Val)) (k : String) (v : Val)
    (hm : noSeqEntries m = true) (hv : NoSeq v = true) :
    noSeqEntries (Val.assocSet m k v) = true := by
  induction m with
  | nil => simp [Val.assocSet, noSeqEntries, hv]
  | cons kv rest ih =>
    obtain ⟨k0, v0⟩ := kv
    simp only [noSeqEntries, Bool.and_eq_true] at hm
    by_cases h0 : k0 = k
    · simp [Val.assocSet, h0, noSeqEntries, hv, hm.2]
    · simp only [Val.assocSet, if_neg h0]
      simp [noSeqEntries, hm.1, ih hm.2]

theorem noSeqEntries_erase (m : List (String × Val)) (k : String)
    (hm : noSeqEntries m = true) :
    noSeqEntries (Val.assocErase m k) = true := by
  induction m with
  | nil => simpa [Val.assocErase] using hm
  | cons kv rest ih =>
    obtain ⟨k0, v0⟩ := kv
    simp only [noSeqEntries, Bool.and_eq_true] at hm
    by_cases h0 : k0 = k
    · simpa [Val.assocErase, h0] using ih hm.2
    · simp [Val.assocErase, h0, noSeqEntries, hm.1, ih hm.2]

theorem removeFieldGo_noSeq_total (obj : Val) (f : String)
    (h : NoSeq obj = true) : ∃ x e, removeFieldGo obj f = some (x, e) := by
  cases obj with
  | vmap m => exact ⟨_, _, rfl⟩
  | varr v => simp [NoSeq] at h
  | vnull => exact ⟨_, _, rfl⟩
  | vbool b => exact ⟨_, _, rfl⟩
  | vint n => exact ⟨_, _, rfl⟩
  | vstr s => exact ⟨_, _, rfl⟩

theorem removeNestedGo_noSeq_total :
    ∀ (p : List String) (s : Val), p ≠ [] → NoSeq s = true →
    (removeNestedGo s p).isSome = true := by
  intro p
  induction p with
  | nil => intro s h; exact absurd rfl h
  | cons f rest ih =>
    intro s _ hs
    cases rest with
    | nil =>
      have he : removeNestedGo s [f] = removeFieldGo s f := rfl
      rw [he]
      obtain ⟨x, e, hx⟩ := removeFieldGo_noSeq_total s f hs
      simp [hx]
    | cons g rest2 =>
      cases s with
      | vmap m =>
        cases hget : Val.assocGet m f with
        | none => simp [removeNestedGo, hget]
        | some v =>
          have hv : NoSeq v = true := by
            have hm : noSeqEntries m = true := by simpa [NoSeq] using hs
            exact noSeqEntries_get m f v hm hget
          have hrec := ih v (by simp) hv
          obtain ⟨⟨x, e⟩, hx⟩ := Option.isSome_iff_exists.mp hrec
          simp [removeNestedGo, hget, hx]
      | varr v => simp [NoSeq] at hs
      | vnull => simp [removeNestedGo]
      | vbool b => simp [removeNestedGo]
      | vint n => simp [removeNestedGo]
      | vstr s2 => simp [removeNestedGo]

theorem removeFieldGo_noSeq_preserve (obj : Val) (f : String) (x : Val) (e : Bool)
    (h : NoSeq obj = true) (hr : removeFieldGo obj f = some (x, e)) :
    NoSeq x = true := by
  cases obj with
  | vmap m =>
    simp only [removeFieldGo, Option.some.injEq, Prod.mk.injEq] at hr
    have hm : noSeqEntries m = true := by simpa [NoSeq] using h
    rw [← hr.1]
    simpa [NoSeq] using noSeqEntries_erase m f hm
  | varr v => simp [NoSeq] at h
  | vnull => simp only [removeFieldGo, Option.some.injEq, Prod.mk.injEq] at hr; rw [← hr.1]; exact h
  | vbool b => simp only [removeFieldGo, Option.some.injEq, Prod.mk.injEq] at hr; rw [← hr.1]; exact h
  | vint n => simp only [removeFieldGo, Option.some.injEq, Prod.mk.injEq] at hr; rw [← hr.1]; exact h
  | vstr s2 => simp only [removeFieldGo, Option.some.injEq, Prod.mk.injEq] at hr; rw [← hr.1]; exact h

theorem removeNestedGo_noSeq_preserve :
    ∀ (p : List String) (s x : Val) (e : Bool), p ≠ [] → NoSeq s = true →
    removeNestedGo s p = some (x, e) → NoSeq x = true := by
  intro p
  induction p with
  | nil => intro s x e h; exact absurd rfl h
  | cons f rest ih =>
    intro s x e _ hs hr
    cases rest with
    | nil =>
      have : removeNestedGo s [f] = removeFieldGo s f := rfl
      rw [this] at hr
      exact removeFieldGo_noSeq_preserve s f x e hs hr
    | cons g rest2 =>
      cases s with
      | vmap m =>
        have hm : noSeqEntries m = true := by simpa [NoSeq] using hs
        cases hget : Val.assocGet m f with
        | none =>
          simp only [removeNestedGo, hget, Option.some.injEq, Prod.mk.injEq] at hr
          rw [← hr.1]; exact hs
        | some v =>
          have hv : NoSeq v = true := noSeqEntries_get m f v hm hget
          obtain ⟨⟨xv, ev⟩, hxv⟩ :=
            Option.isSome_iff_exists.mp (removeNestedGo_noSeq_total (g :: rest2) v (by simp) hv)
          have hxvS : NoSeq xv = true := ih v xv ev (by simp) hv hxv
          simp only [removeNestedGo, hget, hxv, Option.some.injEq, Prod.mk.injEq] at hr
          rw [← hr.1]
          cases ev with
          | true =>
            simp only [if_pos rfl] at hr ⊢
            have h1 : noSeqEntries (Val.assocSet m f xv) = true := noSeqEntries_set m f xv hm hxvS
            simpa [NoSeq] using noSeqEntries_erase (Val.assocSet m f xv) f h1
          | false =>
            simp only [Bool.false_eq_true, if_neg] at hr ⊢
            simpa [NoSeq] using noSeqEntries_set m f xv hm hxvS
      | varr v => simp [NoSeq] at hs
      | vnull =>
        simp only [removeNestedGo, Option.some.injEq, Prod.mk.injEq] at hr
        rw [← hr.1]; exact hs
      | vbool b =>
        simp only [removeNestedGo, Option.some.injEq, Prod.mk.injEq] at hr
        rw [← hr.1]; exact hs
      | vint n =>
        simp only [removeNestedGo, Option.some.injEq, Prod.mk.injEq] at hr
        rw [← hr.1]; exact hs
      | vstr s2 =>
        simp only [removeNestedGo, Option.some.injEq, Prod.mk.injEq] at hr
        rw [← hr.1]; exact hs

theorem removeNestedGo_flag_true (p : List String) (s x : Val)
    (hp : p ≠ []) (hs : NoSeq s = true)
    (h : removeNestedGo s p = some (x, true)) : x = Val.vmap [] := by
  cases p with
  | nil => exact absurd rfl hp
  | cons f rest =>
    cases rest with
    | nil =>
      have he : removeNestedGo s [f] = removeFieldGo s f := rfl
      rw [he] at h
      cases s with
      | vmap m =>
        simp only [removeFieldGo, Option.some.injEq, Prod.mk.injEq] at h
        rw [← h.1]
        rw [List.isEmpty_iff.mp h.2]
      | varr v => simp [NoSeq] at hs
      | vnull => simp [removeFieldGo] at h
      | vbool b => simp [removeFieldGo] at h
      | vint n => simp [removeFieldGo] at h
      | vstr s2 => simp [removeFieldGo] at h
    | cons g rest2 =>
      cases s with
      | vmap m =>
        have hm : noSeqEntries m = true := by simpa [NoSeq] using hs
        cases hget : Val.assocGet m f with
        | none => simp [removeNestedGo, hget] at h
        | some v =>
          have hv : NoSeq v = true := noSeqEntries_get m f v hm hget
          obtain ⟨⟨xv, ev⟩, hxv⟩ :=
            Option.isSome_iff_exists.mp (removeNestedGo_noSeq_total (g :: rest2) v (by simp) hv)
          simp only [removeNestedGo, hget, hxv, Option.some.injEq, Prod.mk.injEq] at h
          rw [← h.1]
          rw [List.isEmpty_iff.mp h.2]
      | varr v => simp [NoSeq] at hs
      | vnull => simp [removeNestedGo] at h
      | vbool b => simp [removeNestedGo] at h
      | vint n => simp [removeNestedGo] at h
      | vstr s2 => simp [removeNestedGo] at h

theorem removeNestedGo_to_empty (p : List String) (s : Val)
    (hp : p ≠ []) (hs : NoSeq s = true)
    (h : removeNestedGo s p = some (Val.vmap [], false)) : s = Val.vmap [] := by
  cases p with
  | nil => exact absurd rfl hp
  | cons f rest =>
    cases rest with
    | nil =>
      have he : removeNestedGo s [f] = removeFieldGo s f := rfl
      rw [he] at h
      cases s with
      | vmap m =>
        simp only [removeFieldGo, Option.some.injEq, Prod.mk.injEq, Val.vmap.injEq] at h
        rw [h.1] at h
        simp at h
      | varr v => simp [NoSeq] at hs
      | vnull => simp [removeFieldGo] at h
      | vbool b => simp [removeFieldGo] at h
      | vint n => simp [removeFieldGo] at h
      | vstr s2 => simp [removeFieldGo] at h
    | cons g rest2 =>
      cases s with
      | vmap m =>
        have hm : noSeqEntries m = true := by simpa [NoSeq] using hs
        cases hget : Val.assocGet m f with
        | none =>
          simp only [removeNestedGo, hget, Option.some.injEq, Prod.mk.injEq, Val.vmap.injEq] at h
          rw [h.1]
        | some v =>
          have hv : NoSeq v = true := noSeqEntries_get m f v hm hget
          obtain ⟨⟨xv, ev⟩, hxv⟩ :=
            Option.isSome_iff_exists.mp (removeNestedGo_noSeq_total (g :: rest2) v (by simp) hv)
          simp only [removeNestedGo, hget, hxv, Option.some.injEq, Prod.mk.injEq, Val.vmap.injEq] at h
          rw [h.1] at h
          simp at h
      | varr v => simp [NoSeq] at hs
      | vnull => simp [removeNestedGo] at h
      | vbool b => simp [removeNestedGo] at h
      | vint n => simp [removeNestedGo] at h
      | vstr s2 => simp [removeNestedGo] at h

theorem removeNested_noop_of_result :
    ∀ (p : List String) (s x : Val) (e : Bool), p ≠ [] → NoSeq s = true →
    removeNestedGo s p = some (x, e) → removeNestedField x p = some x := by
  intro p
  induction p with
  | nil => intro s x e h; exact absurd rfl h
  | cons f rest ih =>
    intro s x e _ hs hr
    cases rest with
    | nil =>
      have he : ∀ t : Val, removeNestedGo t [f] = removeFieldGo t f := fun _ => rfl
      rw [he] at hr
      cases s with
      | vmap m =>
        simp only [removeFieldGo, Option.some.injEq, Prod.mk.injEq] at hr
        rw [← hr.1]
        simp [removeNestedField, he, removeFieldGo, Val.assocErase_assocErase]
      | varr v => simp [NoSeq] at hs
      | vnull =>
        simp only [removeFieldGo, Option.some.injEq, Prod.mk.injEq] at hr
        rw [← hr.1]; simp [removeNestedField, he, removeFieldGo]
      | vbool b =>
        simp only [removeFieldGo, Option.some.injEq, Prod.mk.injEq] at hr
        rw [← hr.1]; simp [removeNestedField, he, removeFieldGo]
      | vint n =>
        simp only [removeFieldGo, Option.some.injEq, Prod.mk.injEq] at hr
        rw [← hr.1]; simp [removeNestedField, he, removeFieldGo]
      | vstr s2 =>
        simp only [removeFieldGo, Option.some.injEq, Prod.mk.injEq] at hr
        rw [← hr.1]; simp [removeNestedField, he, removeFieldGo]
    | cons g rest2 =>
      cases s with
      | vmap m =>
        have hm : noSeqEntries m = true := by simpa [NoSeq] using hs
        cases hget : Val.assocGet m f with
        | none =>
          simp only [removeNestedGo, hget, Option.some.injEq, Prod.mk.injEq] at hr
          rw [← hr.1]
          simp [removeNestedField, removeNestedGo, hget]
        | some v =>
          have hv : NoSeq v = true := noSeqEntries_get m f v hm hget
          obtain ⟨⟨xv, ev⟩, hxv⟩ :=
            Option.isSome_iff_exists.mp (removeNestedGo_noSeq_total (g :: rest2) v (by simp) hv)
          simp only [removeNestedGo, hget, hxv, Option.some.injEq, Prod.mk.injEq] at hr
          cases ev with
          | true =>
            simp only [if_pos rfl] at hr
            rw [← hr.1, Val.assocErase_assocSet]
            have hnone : Val.assocGet (Val.assocErase m f) f = none :=
              Val.assocGet_assocErase_self m f
            simp [removeNestedField, removeNestedGo, hnone]
          | false =>
            simp only [Bool.false_eq_true, if_neg, if_false] at hr
            rw [← hr.1]
            have hgx : Val.assocGet (Val.assocSet m f xv) f = some xv :=
              Val.assocGet_assocSet m f xv
            have hxvS : NoSeq xv = true :=
              removeNestedGo_noSeq_preserve (g :: rest2) v xv false (by simp) hv hxv
            have hnoop : removeNestedField xv (g :: rest2) = some xv :=
              ih v xv false (by simp) hv hxv
            obtain ⟨⟨x2, e2⟩, hx2⟩ :=
              Option.isSome_iff_exists.mp (removeNestedGo_noSeq_total (g :: rest2) xv (by simp) hxvS)
            have hx2v : x2 = xv := by
              have h3 := hnoop
              simp only [removeNestedField, hx2] at h3
              simpa using h3
            cases e2 with
            | true =>
              exfalso
              rw [hx2v] at hx2
              have hxvEmpty : xv = Val.vmap [] :=
                removeNestedGo_flag_true (g :: rest2) xv xv (by simp) hxvS hx2
              have hvEmpty : v = Val.vmap [] := by
                apply removeNestedGo_to_empty (g :: rest2) v (by simp) hv
                rw [hxv, hxvEmpty]
              rw [hxvEmpty] at hx2
              rw [hvEmpty, hxvEmpty] at hxv
              rw [hxv] at hx2
              simp at hx2
            | false =>
              rw [hx2v] at hx2
              have hset : Val.assocSet (Val.assocSet m f xv) f xv = Val.assocSet m f xv :=
                Val.assocSet_same (Val.assocSet m f xv) f xv hgx
              simp [removeNestedField, removeNestedGo, hgx, hx2, hset]
      | varr v => simp [NoSeq] at hs
      | vnull =>
        simp only [removeNestedGo, Option.some.injEq, Prod.mk.injEq] at hr
        rw [← hr.1]; simp [removeNestedField, removeNestedGo]
      | vbool b =>
        simp only [removeNestedGo, Option.some.injEq, Prod.mk.injEq] at hr
        rw [← hr.1]; simp [removeNestedField, removeNestedGo]
      | vint n =>
        simp only [removeNestedGo, Option.some.injEq, Prod.mk.injEq] at hr
        rw [← hr.1]; simp [removeNestedField, removeNestedGo]
      | vstr s2 =>
        simp only [removeNestedGo, Option.some.injEq, Prod.mk.injEq] at hr
        rw [← hr.1]; simp [removeNestedField, removeNestedGo]

theorem noop_base (m : List (String × Val)) (f : String)
    (hn : removeNestedField (Val.vmap m) [f] = some (Val.vmap m)) :
    Val.assocGet m f = none := by
  simp only [removeNestedField, removeNestedGo, removeFieldGo] at hn
  simp only [Option.map_some'] at hn
  have h1 : Val.assocErase m f = m := by
    have := hn
    simp only [Option.some.injEq, Val.vmap.injEq] at this
    exact this
  exact Val.assocGet_none_of_erase_eq m f h1

theorem noop_inner (m : List (String × Val)) (f : String) (v : Val) (p2 : List String)
    (hp2 : p2 ≠ []) (hm : noSeqEntries m = true) (hget : Val.assocGet m f = some v)
    (hn : removeNestedField (Val.vmap m) (f :: p2) = some (Val.vmap m)) :
    removeNestedGo v p2 = some (v, false) := by
  have hv : NoSeq v = true := noSeqEntries_get m f v hm hget
  obtain ⟨⟨xv, ev⟩, hxv⟩ :=
    Option.isSome_iff_exists.mp (removeNestedGo_noSeq_total p2 v hp2 hv)
  cases p2 with
  | nil => exact absurd rfl hp2
  | cons q1 qrest =>
    cases ev with
    | true =>
      exfalso
      simp only [removeNestedField, removeNestedGo, hget, hxv, if_pos] at hn
      rw [Val.assocErase_assocSet] at hn
      simp only [Option.map_some', Option.some.injEq, Val.vmap.injEq] at hn
      have := Val.assocGet_none_of_erase_eq m f hn
      rw [this] at hget
      exact Option.noConfusion hget
    | false =>
      simp only [removeNestedField, removeNestedGo, hget, hxv, Bool.false_eq_true,
        if_false] at hn
      simp only [Option.map_some', Option.some.injEq, Val.vmap.injEq] at hn
      have hsv : Val.assocGet m f = some xv := Val.assocGet_of_assocSet_eq m f xv hn
      rw [hget] at hsv
      have : xv = v := by
        have h2 := hsv
        simp only [Option.some.injEq] at h2
        exact h2.symm
      rw [this] at hxv
      exact hxv

theorem flag_false_of_noop (p2 q2 : List String) (w xw : Val) (e2 : Bool)
    (hp2 : p2 ≠ []) (hq2 : q2 ≠ []) (hw : NoSeq w = true)
    (hwp : removeNestedGo w p2 = some (w, false))
    (hwq : removeNestedGo w q2 = some (xw, false))
    (hx2 : removeNestedGo xw p2 = some (xw, e2)) : e2 = false := by
  cases e2 with
  | false => rfl
  | true =>
    exfalso
    have hxwS : NoSeq xw = true := removeNestedGo_noSeq_preserve q2 w xw false hq2 hw hwq
    have hxwEmpty : xw = Val.vmap [] :=
      removeNestedGo_flag_true p2 xw xw hp2 hxwS hx2
    have hwEmpty : w = Val.vmap [] := by
      apply removeNestedGo_to_empty q2 w hq2 hw
      rw [hwq, hxwEmpty]
    rw [hwEmpty] at hwp
    rw [hxwEmpty, hwEmpty.symm] at hx2
    rw [hwEmpty] at hx2
    rw [hwp] at hx2
    simp at hx2

theorem removeNested_noop_erase (p : List String) (m : List (String × Val)) (g : String)
    (hp : p ≠ []) (hs : NoSeq (Val.vmap m) = true)
    (hn : removeNestedField (Val.vmap m) p = some (Val.vmap m)) :
    removeNestedField (Val.vmap (Val.assocErase m g)) p
      = some (Val.vmap (Val.assocErase m g)) := by
  have hm : noSeqEntries m = true := by simpa [NoSeq] using hs
  cases p with
  | nil => exact absurd rfl hp
  | cons f p2 =>
    cases p2 with
    | nil =>
      have hfn : Val.assocGet m f = none := noop_base m f hn
      have hfn2 : Val.assocGet (Val.assocErase m g) f = none := by
        by_cases hfg : f = g
        · rw [hfg]; exact Val.assocGet_assocErase_self m g
        · rw [Val.assocGet_assocErase_ne m g f hfg]; exact hfn
      simp [removeNestedField, removeNestedGo, removeFieldGo,
        Val.assocErase_of_get_none _ f hfn2]
    | cons q1 qrest =>
      cases hgetf : Val.assocGet m f with
      | none =>
        have hfn2 : Val.assocGet (Val.assocErase m g) f = none := by
          by_cases hfg : f = g
          · rw [hfg]; exact Val.assocGet_assocErase_self m g
          · rw [Val.assocGet_assocErase_ne m g f hfg]; exact hgetf
        simp [removeNestedField, removeNestedGo, hfn2]
      | some v =>
        have hvrun : removeNestedGo v (q1 :: qrest) = some (v, false) :=
          noop_inner m f v (q1 :: qrest) (by simp) hm hgetf hn
        by_cases hfg : f = g
        · rw [hfg] at hgetf ⊢
          have hfn2 : Val.assocGet (Val.assocErase m g) g = none :=
            Val.assocGet_assocErase_self m g
          simp [removeNestedField, removeNestedGo, hfn2]
        · have hget2 : Val.assocGet (Val.assocErase m g) f = some v := by
            rw [Val.assocGet_assocErase_ne m g f hfg]; exact hgetf
          have hset : Val.assocSet (Val.assocErase m g) f v = Val.assocErase m g :=
            Val.assocSet_same _ f v hget2
          simp [removeNestedField, removeNestedGo, hget2, hvrun, hset]

theorem removeNested_noop_stable :
    ∀ (q p : List String) (s t : Val) (e : Bool), p ≠ [] → q ≠ [] → NoSeq s = true →
    removeNestedField s p = some s → removeNestedGo s q = some (t, e) →
    removeNestedField t p = some t := by
  intro q
  induction q with
  | nil => intro p s t e _ hq; exact absurd rfl hq
  | cons g q2 ih =>
    intro p s t e hp _ hs hn hq
    cases q2 with
    | nil =>
      have he : removeNestedGo s [g] = removeFieldGo s g := rfl
      rw [he] at hq
      cases s with
      | vmap m =>
        simp only [removeFieldGo, Option.some.injEq, Prod.mk.injEq] at hq
        rw [← hq.1]
        exact removeNested_noop_erase p m g hp hs hn
      | varr v => simp [NoSeq] at hs
      | vnull =>
        simp only [removeFieldGo, Option.some.injEq, Prod.mk.injEq] at hq
        rw [← hq.1]; exact hn
      | vbool b =>
        simp only [removeFieldGo, Option.some.injEq, Prod.mk.injEq] at hq
        rw [← hq.1]; exact hn
      | vint n =>
        simp only [removeFieldGo, Option.some.injEq, Prod.mk.injEq] at hq
        rw [← hq.1]; exact hn
      | vstr s2 =>
        simp only [removeFieldGo, Option.some.injEq, Prod.mk.injEq] at hq
        rw [← hq.1]; exact hn
    | cons g2 q3 =>
      cases s with
      | varr v => simp [NoSeq] at hs
      | vnull =>
        simp only [removeNestedGo, Option.some.injEq, Prod.mk.injEq] at hq
        rw [← hq.1]; exact hn
      | vbool b =>
        simp only [removeNestedGo, Option.some.injEq, Prod.mk.injEq] at hq
        rw [← hq.1]; exact hn
      | vint n =>
        simp only [removeNestedGo, Option.some.injEq, Prod.mk.injEq] at hq
        rw [← hq.1]; exact hn
      | vstr s2 =>
        simp only [removeNestedGo, Option.some.injEq, Prod.mk.injEq] at hq
        rw [← hq.1]; exact hn
      | vmap m =>
        have hm : noSeqEntries m = true := by simpa [NoSeq] using hs
        cases hget : Val.assocGet m g with
        | none =>
          simp only [removeNestedGo, hget, Option.some.injEq, Prod.mk.injEq] at hq
          rw [← hq.1]; exact hn
        | some w =>
          have hw : NoSeq w = true := noSeqEntries_get m g w hm hget
          obtain ⟨⟨xw, ew⟩, hxw⟩ :=
            Option.isSome_iff_exists.mp
              (removeNestedGo_noSeq_total (g2 :: q3) w (by simp) hw)
          simp only [removeNestedGo, hget, hxw, Option.some.injEq, Prod.mk.injEq] at hq
          cases ew with
          | true =>
            simp only [if_pos rfl] at hq
            rw [Val.assocErase_assocSet] at hq
            rw [← hq.1]
            exact removeNested_noop_erase p m g hp hs hn
          | false =>
            simp only [Bool.false_eq_true, if_false] at hq
            rw [← hq.1]
            cases p with
            | nil => exact absurd rfl hp
            | cons f p2 =>
              cases p2 with
              | nil =>
                have hfn : Val.assocGet m f = none := noop_base m f hn
                have hfg : f ≠ g := by
                  intro hh
                  rw [hh, hget] at hfn
                  exact Option.noConfusion hfn
                have hfn2 : Val.assocGet (Val.assocSet m g xw) f = none := by
                  rw [Val.assocGet_assocSet_ne m g f xw hfg]; exact hfn
                simp [removeNestedField, removeNestedGo, removeFieldGo,
                  Val.assocErase_of_get_none _ f hfn2]
              | cons p21 p2rest =>
                cases hgetf : Val.assocGet m f with
                | none =>
                  have hfg : f ≠ g := by
                    intro hh
                    rw [hh, hget] at hgetf
                    exact Option.noConfusion hgetf
                  have hfn2 : Val.assocGet (Val.assocSet m g xw) f = none := by
                    rw [Val.assocGet_assocSet_ne m g f xw hfg]; exact hgetf
                  simp [removeNestedField, removeNestedGo, hfn2]
                | some v =>
                  have hvrun : removeNestedGo v (p21 :: p2rest) = some (v, false) :=
                    noop_inner m f v (p21 :: p2rest) (by simp) hm hgetf hn
                  by_cases hfg : f = g
                  · subst hfg
                    have hvw : v = w := by
                      rw [hget] at hgetf
                      have h2 := hgetf
                      simp only [Option.some.injEq] at h2
                      exact h2.symm
                    subst hvw
                    have hget2 : Val.assocGet (Val.assocSet m f xw) f = some xw :=
                      Val.assocGet_assocSet m f xw
                    have hnoop2 : removeNestedField xw (p21 :: p2rest) = some xw :=
                      ih (p21 :: p2rest) v xw false (by simp) (by simp) hw
                        (by simp [removeNestedField, hvrun]) hxw
                    have hxwS : NoSeq xw = true :=
                      removeNestedGo_noSeq_preserve (g2 :: q3) v xw false (by simp) hw hxw
                    obtain ⟨⟨x2, e2⟩, hx2⟩ :=
                      Option.isSome_iff_exists.mp
                        (removeNestedGo_noSeq_total (p21 :: p2rest) xw (by simp) hxwS)
                    have hx2v : x2 = xw := by
                      have h3 := hnoop2
                      simp only [removeNestedField, hx2] at h3
                      simpa using h3
                    rw [hx2v] at hx2
                    have he2 : e2 = false :=
                      flag_false_of_noop (p21 :: p2rest) (g2 :: q3) v xw e2
                        (by simp) (by simp) hw hvrun hxw hx2
                    rw [he2] at hx2
                    have hset : Val.assocSet (Val.assocSet m f xw) f xw
                        = Val.assocSet m f xw :=
                      Val.assocSet_same _ f xw hget2
                    simp [removeNestedField, removeNestedGo, hget2, hx2, hset]
                  · have hget2 : Val.assocGet (Val.assocSet m g xw) f = some v := by
                      rw [Val.assocGet_assocSet_ne m g f xw hfg]; exact hgetf
                    have hset : Val.assocSet (Val.assocSet m g xw) f v
                        = Val.assocSet m g xw :=
                      Val.assocSet_same _ f v hget2
                    simp [removeNestedField, removeNestedGo, hget2, hvrun, hset]

theorem removeNested_noop_stable_all :
    ∀ (P : List (List String)) (p : List String) (s t : Val), p ≠ [] →
    (∀ q ∈ P, q ≠ []) → NoSeq s = true →
    removeNestedField s p = some s → removeAll s P = some t →
    removeNestedField t p = some t := by
  intro P
  induction P with
  | nil =>
    intro p s t _ _ _ hn hall
    simp only [removeAll, Option.some.injEq] at hall
    rw [← hall]; exact hn
  | cons q P2 ih =>
    intro p s t hp hP hs hn hall
    have hq : q ≠ [] := hP q (by simp)
    obtain ⟨⟨s1, e1⟩, hs1⟩ :=
      Option.isSome_iff_exists.mp (removeNestedGo_noSeq_total q s hq hs)
    have hs1f : removeNestedField s q = some s1 := by
      simp [removeNestedField, hs1]
    simp only [removeAll, hs1f] at hall
    have hs1S : NoSeq s1 = true := removeNestedGo_noSeq_preserve q s s1 e1 hq hs hs1
    have hn1 : removeNestedField s1 p = some s1 :=
      removeNested_noop_stable q p s s1 e1 hp hq hs hn hs1
    exact ih p s1 t hp (fun q2 hq2 => hP q2 (by simp [hq2])) hs1S hn1 hall

theorem removeAll_noop_after :
    ∀ (P : List (List String)) (s t : Val), (∀ q ∈ P, q ≠ []) → NoSeq s = true →
    removeAll s P = some t → ∀ p ∈ P, removeNestedField t p = some t := by
  intro P
  induction P with
  | nil => intro s t _ _ _ p hmem; simp at hmem
  | cons q P2 ih =>
    intro s t hP hs hall p hmem
    have hq : q ≠ [] := hP q (by simp)
    obtain ⟨⟨s1, e1⟩, hs1⟩ :=
      Option.isSome_iff_exists.mp (removeNestedGo_noSeq_total q s hq hs)
    have hs1f : removeNestedField s q = some s1 := by
      simp [removeNestedField, hs1]
    simp only [removeAll, hs1f] at hall
    have hs1S : NoSeq s1 = true := removeNestedGo_noSeq_preserve q s s1 e1 hq hs hs1
    rcases List.mem_cons.mp hmem with hpq | hp2
    · subst hpq
      have hn1 : removeNestedField s1 p = some s1 :=
        removeNested_noop_of_result p s s1 e1 hq hs hs1
      exact removeNested_noop_stable_all P2 p s1 t hq
        (fun q2 hq2 => hP q2 (by simp [hq2])) hs1S hn1 hall
    · exact ih s1 t (fun q2 hq2 => hP q2 (by simp [hq2])) hs1S hall p hp2

theorem removeAll_of_noop :
    ∀ (P : List (List String)) (t : Val),
    (∀ p ∈ P, removeNestedField t p = some t) → removeAll t P = some t := by
  intro P
  induction P with
  | nil => intro t _; rfl
  | cons q P2 ih =>
    intro t hno
    have h1 : removeNestedField t q = some t := hno q (by simp)
    simp only [removeAll, h1]
    exact ih t (fun p hp => hno p (by simp [hp]))

theorem removeFieldGo_total (obj : Val) (f : String)
    (h : ∀ n : Int, goAtoi f = some n → 0 ≤ n) :
    (removeFieldGo obj f).isSome = true := by
  cases obj with
  | vmap m => simp [removeFieldGo]
  | varr v =>
    cases hA : goAtoi f with
    | none => simp [removeFieldGo, hA]
    | some idx =>
      have hidx : 0 ≤ idx := h idx hA
      simp only [removeFieldGo, hA]
      by_cases hlt : (v.length : Int) > idx
      · rw [if_pos hlt, if_neg (by omega)]
        simp
      · rw [if_neg hlt]
        simp
  | vnull => simp [removeFieldGo]
  | vbool b => simp [removeFieldGo]
  | vint n => simp [removeFieldGo]
  | vstr s => simp [removeFieldGo]

theorem removeNestedGo_total :
    ∀ (fields : List String) (obj : Val), fields ≠ [] → IndexSafe fields →
    (removeNestedGo obj fields).isSome = true := by
  intro fields
  induction fields with
  | nil => intro obj h; exact absurd rfl h
  | cons f rest ih =>
    intro obj _ hsafe
    have hf : ∀ n : Int, goAtoi f = some n → 0 ≤ n :=
      fun n hn => hsafe f (by simp) n hn
    cases rest with
    | nil =>
      have he : removeNestedGo obj [f] = removeFieldGo obj f := rfl
      rw [he]
      exact removeFieldGo_total obj f hf
    | cons g rest2 =>
      have hsafe2 : IndexSafe (g :: rest2) :=
        fun q hq n hn => hsafe q (by simp [hq]) n hn
      cases obj with
      | vmap m =>
        cases hget : Val.assocGet m f with
        | none => simp [removeNestedGo, hget]
        | some v =>
          obtain ⟨⟨x, e⟩, hx⟩ :=
            Option.isSome_iff_exists.mp (ih v (by simp) hsafe2)
          simp [removeNestedGo, hget, hx]
      | varr v =>
        cases hA : goAtoi f with
        | none => simp [removeNestedGo, hA]
        | some idx =>
          have hidx : 0 ≤ idx := hf idx hA
          by_cases hle : (v.length : Int) ≤ idx
          · simp [removeNestedGo, hA, hle]
          · have hlt : idx.toNat < v.length := by omega
            cases hv : v.get? idx.toNat with
            | none =>
              exfalso
              rw [List.get?_eq_none] at hv
              omega
            | some elem =>
              obtain ⟨⟨x, e⟩, hx⟩ :=
                Option.isSome_iff_exists.mp (ih elem (by simp) hsafe2)
              have hv2 : v[idx.toNat]? = some elem := by
                rw [← List.get?_eq_getElem?]; exact hv
              simp [removeNestedGo, hA, hle, hv2, hx, if_neg (by omega : ¬idx < 0)]
      | vnull => simp [removeNestedGo]
      | vbool b => simp [removeNestedGo]
      | vint n => simp [removeNestedGo]
      | vstr s => simp [removeNestedGo]

/-- C1: `NestedField` has its slice bounds check inverted. On the
in-range access `obj = ["a"], fields = ["0"]` it reports not-found
instead of returning element 0, and on the out-of-range access
`fields = ["2"]` it panics (`none`) instead of reporting not-found. -/
theorem c1_nested_field_inverted_bounds :
    nestedField (Val.varr [Val.vstr "a"]) ["0"] = some (Val.vnull, false, false) ∧
    nestedField (Val.varr [Val.vstr "a"]) ["2"] = none :=
  ⟨rfl, rfl⟩

/-- C4: when an inner container becomes empty, the backtracking removal
truncates the owning sequence at the removed index instead of splicing
out one element: removing `.0.a` from `[{"a":1},{"b":2}]` drops the
trailing sibling and yields `[]` rather than `[{"b":2}]`. -/
theorem c4_backtrack_truncates_tail :
    removeNestedField
      (Val.varr [Val.vmap [("a", Val.vint 1)], Val.vmap [("b", Val.vint 2)]])
      ["0", "a"] = some (Val.varr []) ∧
    Val.varr [] ≠ Val.varr [Val.vmap [("b", Val.vint 2)]] :=
  ⟨rfl, by simp⟩

/-- C5 (counterexample): removal of a path set is not idempotent in the
presence of sequence indexes: removing path `.1` from `["a","b","c"]`
once gives `["a","c"]`, and removing it again gives `["a"]`. -/
theorem c5_remove_not_idempotent_on_sequences :
    removeAll (Val.varr [Val.vstr "a", Val.vstr "b", Val.vstr "c"]) [["1"]]
      = some (Val.varr [Val.vstr "a", Val.vstr "c"]) ∧
    removeAll (Val.varr [Val.vstr "a", Val.vstr "c"]) [["1"]]
      = some (Val.varr [Val.vstr "a"]) ∧
    Val.varr [Val.vstr "a"] ≠ Val.varr [Val.vstr "a", Val.vstr "c"] :=
  ⟨rfl, rfl, by simp⟩

/-- C5 (amended): on resources built only of mappings and scalars (no
sequences), removing a path set twice gives the same result as removing
it once: `remove(remove(r, P), P) = remove(r, P)`. -/
theorem c5_remove_idempotent_on_mappings (r r1 : Val) (P : List (List String))
    (hs : NoSeq r = true) (hP : ∀ p ∈ P, p ≠ [])
    (h : removeAll r P = some r1) : removeAll r1 P = some r1 :=
  removeAll_of_noop P r1 (removeAll_noop_after P r r1 hP hs h)

/-- Witness for the amended C5 theorem at a concrete mapping resource. -/
theorem c5_remove_idempotent_on_mappings_witness :
    removeAll (Val.vmap [("a", Val.vmap [("b", Val.vint 1)]), ("c", Val.vint 2)])
      [["a", "b"], ["z"]] = some (Val.vmap [("c", Val.vint 2)]) ∧
    removeAll (Val.vmap [("c", Val.vint 2)]) [["a", "b"], ["z"]]
      = some (Val.vmap [("c", Val.vint 2)]) :=
  ⟨rfl, c5_remove_idempotent_on_mappings
    (Val.vmap [("a", Val.vmap [("b", Val.vint 1)]), ("c", Val.vint 2)])
    (Val.vmap [("c", Val.vint 2)]) [["a", "b"], ["z"]] rfl (by simp) rfl⟩

/-- C10 (counterexample): a non-integer segment at a terminal sequence
node does not stop the removal: the Atoi error leaves index 0 and the
error-or-in-range test splices out element 0, so removing path `x` from
`["a","b"]` yields `["b"]`. -/
theorem c10_nonint_terminal_splices_first :
    goAtoi "x" = none ∧
    removeNestedField (Val.varr [Val.vstr "a", Val.vstr "b"]) ["x"]
      = some (Val.varr [Val.vstr "b"]) ∧
    Val.varr [Val.vstr "b"] ≠ Val.varr [Val.vstr "a", Val.vstr "b"] :=
  ⟨rfl, rfl, by simp⟩

/-- C10 (amended): for every document and nonempty field list whose
integer-parsing segments are nonnegative, `RemoveNestedField` terminates
and produces a result without panicking (and it reports no error by
signature): every slice access is guarded. Out-of-range segments and
non-integer segments at inner sequence nodes stop the removal; a
non-integer segment at a terminal sequence node splices out element 0. -/
theorem c10_remove_nested_field_no_panic (obj : Val) (fields : List String)
    (hne : fields ≠ []) (hsafe : IndexSafe fields) :
    (removeNestedField obj fields).isSome = true := by
  have h := removeNestedGo_total fields obj hne hsafe
  obtain ⟨⟨x, e⟩, hx⟩ := Option.isSome_iff_exists.mp h
  simp [removeNestedField, hx]

/-- Witness for the C10 theorem at a concrete document and path. -/
theorem c10_remove_nested_field_no_panic_witness :
    (removeNestedField (Val.varr [Val.vmap [("a", Val.vint 1)], Val.vstr "b"])
      ["0", "a"]).isSome = true :=
  c10_remove_nested_field_no_panic _ ["0", "a"] (by simp) (by decide)

theorem length_filter_pos_iff (q : String → Bool) (l : List String) :
    0 < (l.filter q).length ↔ ∃ x ∈ l, q x = true := by
  rw [List.length_pos, Ne, List.filter_eq_nil_iff]
  push_neg
  simp

theorem length_filter_eq_iff (q : String → Bool) (l : List String) :
    (l.filter q).length = l.length ↔ ∀ x ∈ l, q x = true := by
  induction l with
  | nil => simp
  | cons a l ih =>
    by_cases hq : q a = true
    · simp [List.filter_cons, hq, ih]
    · have hle := List.length_filter_le q l
      rw [List.filter_cons, if_neg hq]
      simp only [List.length_cons]
      constructor
      · intro h; exact absurd h (by omega)
      · intro h; exact absurd (h a (by simp)) hq

theorem length_filter_ne_iff (q : String → Bool) (l : List String) :
    (l.filter q).length ≠ l.length ↔ ∃ x ∈ l, ¬ q x = true := by
  rw [Ne, length_filter_eq_iff]
  push_neg
  rfl

theorem reports_cond_iff (c : Component) (matched : String → Bool) :
    (0 < (c.getMissingCRs matched).length ∧ (c.ctype = "Required" ∨
      (c.ctype = "Optional" ∧
        (c.getMissingCRs matched).length ≠ c.requiredTemplates.length)))
    ↔ specReports c matched = true := by
  unfold Component.getMissingCRs specReports
  rw [length_filter_pos_iff, length_filter_ne_iff]
  simp only [Bool.or_eq_true, Bool.and_eq_true, beq_iff_eq, List.any_eq_true,
    Bool.not_eq_true', Bool.not_eq_true]
  constructor
  · rintro ⟨⟨x, hx, hqx⟩, hreq | ⟨hopt, y, hy, hqy⟩⟩
    · exact Or.inl ⟨hreq, x, hx, by simpa using hqx⟩
    · refine Or.inr ⟨⟨hopt, y, hy, ?_⟩, x, hx, by simpa using hqx⟩
      simpa using hqy
  · rintro (⟨hreq, x, hx, hqx⟩ | ⟨⟨hopt, y, hy, hqy⟩, x, hx, hqx⟩)
    · exact ⟨⟨x, hx, by simpa using hqx⟩, Or.inl hreq⟩
    · exact ⟨⟨x, hx, by simpa using hqx⟩,
        Or.inr ⟨hopt, y, hy, by simpa using hqy⟩⟩

/-- C3 (amended): `Part.getMissingCRs` reports exactly the components
whose `type` is literally `Required` with at least one unmatched
required template, or literally `Optional` with at least one but not
all required templates matched; a component with an omitted (empty) or
any other `type` value reports nothing, as there is no defaulting. -/
theorem c3_part_missing_crs_reports (part : Part) (matched : String → Bool) :
    (Part.getMissingCRs part matched).1 =
      part.components.filterMap (fun c =>
        if specReports c matched = true then some (c.name, c.getMissingCRs matched)
        else none) := by
  unfold Part.getMissingCRs
  induction part.components with
  | nil => rfl
  | cons c rest ih =>
    by_cases hc : specReports c matched = true
    · have hcond := (reports_cond_iff c matched).mpr hc
      simp only [getMissingCRsAux, if_pos hcond, List.filterMap_cons, hc, if_pos]
      rw [ih]
    · have hcond : ¬(0 < (c.getMissingCRs matched).length ∧ (c.ctype = "Required" ∨
          (c.ctype = "Optional" ∧
            (c.getMissingCRs matched).length ≠ c.requiredTemplates.length))) :=
        fun h => hc ((reports_cond_iff c matched).mp h)
      simp only [getMissingCRsAux, if_neg hcond, List.filterMap_cons, hc, if_neg,
        if_false]
      exact ih

/-- C3 (counterexample): a component whose descriptor omits the `type`
field (decoded as the empty string) with an unmatched required template
reports nothing, although the claim says the omitted type defaults to
Required and must report. -/
theorem c3_omitted_type_reports_nothing :
    Part.getMissingCRs ⟨"p", [⟨"c", "", ["t1"], []⟩]⟩ (fun _ => false) = ([], 0) :=
  rfl

theorem agets_asets {α : Type} (m : List (String × α)) (k : String) (v : α) :
    agets (asets m k v) k = some v := by
  induction m with
  | nil => simp [agets, asets]
  | cons kv rest ih =>
    obtain ⟨k0, v0⟩ := kv
    by_cases h0 : k0 = k
    · simp [agets, asets, h0]
    · simp [agets, asets, h0, ih]

theorem agets_asets_ne {α : Type} (m : List (String × α)) (k k' : String) (v : α)
    (h : k' ≠ k) : agets (asets m k v) k' = agets m k' := by
  induction m with
  | nil =>
    have hk : ¬(k = k') := fun h2 => h h2.symm
    simp [agets, asets, hk]
  | cons kv rest ih =>
    obtain ⟨k0, v0⟩ := kv
    by_cases h0 : k0 = k
    · subst h0
      have hk : ¬(k0 = k') := fun h2 => h h2.symm
      simp [agets, asets, hk]
    · simp only [asets, if_neg h0]
      by_cases h1 : k0 = k'
      · simp [agets, h1]
      · simp [agets, h1, ih]

theorem agets_mem {α : Type} (m : List (String × α)) (k : String) (v : α)
    (h : agets m k = some v) : (k, v) ∈ m := by
  induction m with
  | nil => simp [agets] at h
  | cons kv rest ih =>
    obtain ⟨k0, v0⟩ := kv
    by_cases h0 : k0 = k
    · subst h0
      simp [agets] at h
      simp [h]
    · simp [agets, h0] at h
      simp [ih h]

/-- C9: after every successful fields-to-omit processing, the items map
binds the reserved built-in key to exactly the seeded path list (a
user-supplied entry under that key is overwritten, with a warning); an
empty `defaultKey` becomes the built-in key; and a nonempty
`defaultKey` naming a set absent from the items makes the load fail. -/
theorem c9_built_in_seed (compile : String → Bool) (toOmit : FieldsToOmit) :
    (∀ res, fieldsToOmitProcess compile toOmit = .ok res →
      agets res.items builtInPathsKey = some builtInPaths ∧
      (toOmit.defaultKey = "" → res.defaultKey = builtInPathsKey) ∧
      ((agets toOmit.items builtInPathsKey).isSome = true → res.warnings ≠ [])) ∧
    (toOmit.defaultKey ≠ "" → toOmit.defaultKey ≠ builtInPathsKey →
      agets toOmit.items toOmit.defaultKey = none →
      ∃ e, fieldsToOmitProcess compile toOmit = .error e) := by
  constructor
  · intro res hres
    unfold fieldsToOmitProcess at hres
    by_cases hcond : (agets (asets toOmit.items builtInPathsKey builtInPaths)
        (if toOmit.defaultKey = "" then builtInPathsKey else toOmit.defaultKey)).isSome = true
    · rw [if_pos hcond] at hres
      simp only [Except.ok.injEq] at hres
      refine ⟨?_, ?_, ?_⟩
      · rw [← hres]
        exact agets_asets toOmit.items builtInPathsKey builtInPaths
      · intro hdk
        rw [← hres]
        simp [hdk]
      · intro huser
        rw [← hres]
        simp [huser]
    · rw [if_neg hcond] at hres
      exact Except.noConfusion hres
  · intro hne hnb hnone
    have hget : agets (asets toOmit.items builtInPathsKey builtInPaths)
        toOmit.defaultKey = none := by
      rw [agets_asets_ne toOmit.items builtInPathsKey toOmit.defaultKey builtInPaths hnb]
      exact hnone
    refine ⟨"fieldsToOmit defaultKey " ++ toOmit.defaultKey ++ " not found in items", ?_⟩
    simp only [fieldsToOmitProcess, if_neg hne, hget, Option.isSome_none,
      Bool.false_eq_true, if_false]

/-- Witness for C9 at a concrete fields-to-omit section: part one at a
descriptor that supplies the reserved key and no default key, part two
at a descriptor whose default key is unknown. -/
theorem c9_built_in_seed_witness :
    (agets (FieldsToOmitResult.items
        ⟨builtInPathsKey, asets [(builtInPathsKey, ["status"])] builtInPathsKey builtInPaths,
         processItems (fun _ => true)
           (asets [(builtInPathsKey, ["status"])] builtInPathsKey builtInPaths),
         [fieldsToOmitBuiltInOverwritten builtInPathsKey]⟩)
      builtInPathsKey = some builtInPaths) ∧
    (∃ e, fieldsToOmitProcess (fun _ => true) ⟨"missing", []⟩ = .error e) := by
  constructor
  · exact (((c9_built_in_seed (fun _ => true) ⟨"", [(builtInPathsKey, ["status"])]⟩).1
      _ rfl).1)
  · exact (c9_built_in_seed (fun _ => true) ⟨"missing", []⟩).2
      (by simp) (by simp [builtInPathsKey]) rfl

theorem applyOps_error_mid :
    ∀ (pre : List PatchOp) (d d1 : Val) (op : PatchOp) (post : List PatchOp) (e : String),
    applyOps d pre = .ok d1 → applyOp d1 op = .error e →
    applyOps d (pre ++ op :: post) = .error e := by
  intro pre
  induction pre with
  | nil =>
    intro d d1 op post e hpre hop
    simp only [applyOps, Except.ok.injEq] at hpre
    rw [← hpre] at hop
    simp [applyOps, hop]
  | cons op0 pre2 ih =>
    intro d d1 op post e hpre hop
    simp only [applyOps] at hpre
    cases h0 : applyOp d op0 with
    | error e0 => rw [h0] at hpre; exact Except.noConfusion hpre
    | ok d2 =>
      rw [h0] at hpre
      simp only [List.cons_append, applyOps, h0]
      exact ih d2 d1 op post e hpre hop

/-- C7: whenever applying the patch fails — in particular when any
single op of an rfc6902 patch fails, which fails the whole override —
`UserOverride.Apply` returns the resource unchanged together with the
error. -/
theorem c7_apply_failure_leaves_resource (c : Codecs) (fuel : Nat)
    (o : UserOverride) (r : Val) :
    (∀ e, applyPatch c fuel o.utype o.patch r = .error e →
      uoApply c fuel o r = (r, some e)) ∧
    (∀ (pre : List PatchOp) (op : PatchOp) (post : List PatchOp) (d1 : Val) (e : String),
      o.utype = "rfc6902" → c.decodeOps o.patch = .ok (pre ++ op :: post) →
      applyOps r pre = .ok d1 → applyOp d1 op = .error e →
      uoApply c (fuel + 1) o r = (r, some ("failed to apply user patch: " ++ e))) := by
  constructor
  · intro e herr
    unfold uoApply
    rw [herr]
  · intro pre op post d1 e htype hdec hpre hop
    have hall : applyOps r (pre ++ op :: post) = .error e :=
      applyOps_error_mid pre r d1 op post e hpre hop
    have hstep : applyPatch c (fuel + 1) o.utype o.patch r
        = .error ("failed to apply user patch: " ++ e) := by
      rw [show applyPatch c (fuel + 1) o.utype o.patch r
          = applyPatchF c (applyPatch c fuel) o.utype o.patch r from rfl]
      rw [htype]
      simp [applyPatchF, hdec, hall]
    unfold uoApply
    rw [hstep]

/-- Witness for C7: an rfc6902 override whose single op removes an
absent path leaves the concrete resource unchanged and reports the
patch error. -/
theorem c7_apply_failure_leaves_resource_witness :
    uoApply
      ⟨fun r _ => .ok r,
       fun _ => .ok [⟨"remove", ["a"], Val.vnull⟩],
       fun _ _ => .error "no render",
       fun _ => .error "no parse"⟩
      1 ⟨"", "", "", "", "rfc6902", "p"⟩ (Val.vmap [("b", Val.vint 1)])
    = (Val.vmap [("b", Val.vint 1)],
       some ("failed to apply user patch: " ++ "remove operation does not apply: a")) :=
  (c7_apply_failure_leaves_resource
      ⟨fun r _ => .ok r,
       fun _ => .ok [⟨"remove", ["a"], Val.vnull⟩],
       fun _ _ => .error "no render",
       fun _ => .error "no parse"⟩
      1 ⟨"", "", "", "", "rfc6902", "p"⟩ (Val.vmap [("b", Val.vint 1)])).2
    [] ⟨"remove", ["a"], Val.vnull⟩ [] (Val.vmap [("b", Val.vint 1)])
    "remove operation does not apply: a" rfl rfl rfl rfl

/-- C8: a go-template override whose rendered payload parses to a
mergepatch override produces exactly the same result as that
mergepatch applied directly to the resource (for any fuel on the
direct side; the nesting consumes one recursion step). -/
theorem c8_gotemplate_mergepatch_equiv (c : Codecs) (n m : Nat) (r : Val)
    (patch s mp : String)
    (hrender : c.render patch r = .ok s)
    (hparse : c.parseUO s = .ok ("mergepatch", mp)) :
    applyPatch c (n + 2) "go-template" patch r
      = applyPatch c (m + 1) "mergepatch" mp r := by
  rw [show applyPatch c (n + 2) "go-template" patch r
      = applyPatchF c (applyPatch c (n + 1)) "go-template" patch r from rfl]
  rw [show applyPatch c (m + 1) "mergepatch" mp r
      = applyPatchF c (applyPatch c m) "mergepatch" mp r from rfl]
  simp only [applyPatchF, hrender, hparse]
  rw [show applyPatch c (n + 1) "mergepatch" mp r
      = applyPatchF c (applyPatch c n) "mergepatch" mp r from rfl]
  simp [applyPatchF]

/-- Witness for C8 at concrete codecs: the nested application equals
the direct mergepatch application. -/
theorem c8_gotemplate_mergepatch_equiv_witness :
    applyPatch
      ⟨fun _ _ => .ok (Val.vint 42),
       fun _ => .error "no ops",
       fun _ _ => .ok "rendered",
       fun _ => .ok ("mergepatch", "mp")⟩
      2 "go-template" "p" Val.vnull
    = applyPatch
      ⟨fun _ _ => .ok (Val.vint 42),
       fun _ => .error "no ops",
       fun _ _ => .ok "rendered",
       fun _ => .ok ("mergepatch", "mp")⟩
      6 "mergepatch" "mp" Val.vnull :=
  c8_gotemplate_mergepatch_equiv
    ⟨fun _ _ => .ok (Val.vint 42),
     fun _ => .error "no ops",
     fun _ _ => .ok "rendered",
     fun _ => .ok ("mergepatch", "mp")⟩
    0 5 Val.vnull "p" "rendered" "mp" rfl rfl

theorem resolveSegments_regex_compiled (compile : String → Bool)
    (tab : List (Nat × List Char)) :
    ∀ (segs : List (List Char)) (parts : List PathPart),
    resolveSegments compile tab segs = .ok parts →
    ∀ pp ∈ parts, pp.isRegex = true → compile pp.part = true := by
  intro segs
  induction segs with
  | nil =>
    intro parts h pp hmem
    simp only [resolveSegments, Except.ok.injEq] at h
    rw [← h] at hmem
    simp at hmem
  | cons seg rest ih =>
    intro parts h pp hmem hreg
    simp only [resolveSegments] at h
    cases hrep : lookupReplaced tab seg with
    | none =>
      simp only [hrep] at h
      cases hrec : resolveSegments compile tab rest with
      | error e => rw [hrec] at h; exact Except.noConfusion h
      | ok parts2 =>
        rw [hrec] at h
        simp only [Except.ok.injEq] at h
        rw [← h] at hmem
        rcases List.mem_cons.mp hmem with hh | ht
        · rw [hh] at hreg; simp at hreg
        · exact ih parts2 hrec pp ht hreg
    | some orig =>
      simp only [hrep] at h
      by_cases hbt : (startsWithC orig backtickChar && endsWithC orig backtickChar) = true
      · rw [if_pos hbt] at h
        by_cases hcomp : compile (trimChar backtickChar orig).asString = true
        · rw [if_pos hcomp] at h
          cases hrec : resolveSegments compile tab rest with
          | error e => rw [hrec] at h; exact Except.noConfusion h
          | ok parts2 =>
            rw [hrec] at h
            simp only [Except.ok.injEq] at h
            rw [← h] at hmem
            rcases List.mem_cons.mp hmem with hh | ht
            · rw [hh]
              exact hcomp
            · exact ih parts2 hrec pp ht hreg
        · rw [if_neg hcomp] at h
          exact Except.noConfusion h
      · rw [if_neg hbt] at h
        cases hrec : resolveSegments compile tab rest with
        | error e => rw [hrec] at h; exact Except.noConfusion h
        | ok parts2 =>
          rw [hrec] at h
          simp only [Except.ok.injEq] at h
          rw [← h] at hmem
          rcases List.mem_cons.mp hmem with hh | ht
          · rw [hh] at hreg; simp at hreg
          · exact ih parts2 hrec pp ht hreg

/-- C6 (amended): whenever `splitFields` succeeds, every regex segment
of the result compiled successfully — equivalently, a backtick segment
whose body fails to compile always surfaces as an error. -/
theorem c6_success_implies_regexes_compiled (compile : String → Bool)
    (path : String) (parts : List PathPart)
    (h : splitFields compile path = .ok parts) :
    ∀ pp ∈ parts, pp.isRegex = true → compile pp.part = true := by
  intro pp hmem hreg
  unfold splitFields at h
  by_cases hms : findAllMatches (path.toList.dropWhile (fun c => c = '.')).length.succ
      (path.toList.dropWhile (fun c => c = '.')) = []
  · rw [if_pos (by simpa using hms)] at h
    simp only [Except.ok.injEq] at h
    rw [← h] at hmem
    obtain ⟨seg, _, hseg⟩ := List.mem_map.mp hmem
    rw [← hseg] at hreg
    simp at hreg
  · rw [if_neg (by simpa using hms)] at h
    by_cases hscan : findAllMatches
        ((substituteMatches (findAllMatches
          (path.toList.dropWhile (fun c => c = '.')).length.succ
          (path.toList.dropWhile (fun c => c = '.'))) 0
          (path.toList.dropWhile (fun c => c = '.'))).2.length + 1)
        ((substituteMatches (findAllMatches
          (path.toList.dropWhile (fun c => c = '.')).length.succ
          (path.toList.dropWhile (fun c => c = '.'))) 0
          (path.toList.dropWhile (fun c => c = '.'))).2) = []
    · rw [if_neg (by simpa using hscan)] at h
      exact resolveSegments_regex_compiled compile _ _ parts h pp hmem hreg
    · rw [if_pos (by simpa using hscan)] at h
      exact Except.noConfusion h

/-- Witness for the C6 theorem: a path with a regex segment parses and
the theorem yields that its body compiled. -/
theorem c6_success_implies_regexes_compiled_witness :
    splitFields (fun _ => true) ".`re`.a" = .ok [⟨"re", true⟩, ⟨"a", false⟩] ∧
    (fun _ : String => true) "re" = true :=
  ⟨rfl, c6_success_implies_regexes_compiled (fun _ => true) ".`re`.a"
    [⟨"re", true⟩, ⟨"a", false⟩] rfl ⟨"re", true⟩ (by simp) rfl⟩

/-- C6 (counterexample): a path containing a single unmatched double
quote parses without any error — the lone quote is kept literally in
its segment — contradicting the claim that any unmatched quote yields
an error. -/
theorem c6_unmatched_quote_not_an_error :
    splitFields (fun _ => true) "a.\"b" = .ok [⟨"a", false⟩, ⟨"\"b", false⟩] :=
  rfl

theorem memBuckets_bucketCons (t' t : CTemplate) (h : String)
    (objs : List (String × List CTemplate)) :
    memBuckets t' (bucketCons h t objs) ↔ t' = t ∨ memBuckets t' objs := by
  induction objs with
  | nil =>
    simp [bucketCons, memBuckets]
  | cons kv rest ih =>
    obtain ⟨h0, ts0⟩ := kv
    by_cases hh : h0 = h
    · subst hh
      have hb : bucketCons h0 t ((h0, ts0) :: rest) = (h0, t :: ts0) :: rest := by
        simp [bucketCons]
      rw [hb]
      unfold memBuckets
      constructor
      · intro hx
        obtain ⟨kv2, hkv2, hmem⟩ := hx
        rcases List.mem_cons.mp hkv2 with he | hin
        · rw [he] at hmem
          rcases List.mem_cons.mp hmem with h1 | h1
          · exact Or.inl h1
          · exact Or.inr ⟨(h0, ts0), List.mem_cons_self _ _, h1⟩
        · exact Or.inr ⟨kv2, List.mem_cons_of_mem _ hin, hmem⟩
      · intro hx
        rcases hx with h1 | ⟨kv2, hkv2, hmem⟩
        · exact ⟨(h0, t :: ts0), List.mem_cons_self _ _,
            by rw [h1]; exact List.mem_cons_self _ _⟩
        · rcases List.mem_cons.mp hkv2 with he | hin
          · rw [he] at hmem
            exact ⟨(h0, t :: ts0), List.mem_cons_self _ _, List.mem_cons_of_mem _ hmem⟩
          · exact ⟨kv2, List.mem_cons_of_mem _ hin, hmem⟩
    · have hb : bucketCons h t ((h0, ts0) :: rest) = (h0, ts0) :: bucketCons h t rest := by
        simp [bucketCons, hh]
      rw [hb]
      unfold memBuckets at ih ⊢
      constructor
      · intro hx
        obtain ⟨kv2, hkv2, hmem⟩ := hx
        rcases List.mem_cons.mp hkv2 with he | hin
        · refine Or.inr ⟨kv2, ?_, hmem⟩
          rw [he]
          exact List.mem_cons_self _ _
        · rcases ih.mp ⟨kv2, hin, hmem⟩ with h1 | ⟨kv3, hkv3, hm3⟩
          · exact Or.inl h1
          · exact Or.inr ⟨kv3, List.mem_cons_of_mem _ hkv3, hm3⟩
      · intro hx
        rcases hx with h1 | ⟨kv2, hkv2, hmem⟩
        · obtain ⟨kv3, hkv3, hm3⟩ := ih.mpr (Or.inl h1)
          exact ⟨kv3, List.mem_cons_of_mem _ hkv3, hm3⟩
        · rcases List.mem_cons.mp hkv2 with he | hin
          · refine ⟨(h0, ts0), List.mem_cons_self _ _, ?_⟩
            rw [he] at hmem
            exact hmem
          · obtain ⟨kv3, hkv3, hm3⟩ := ih.mpr (Or.inr ⟨kv2, hin, hmem⟩)
            exact ⟨kv3, List.mem_cons_of_mem _ hkv3, hm3⟩

theorem claimTemplates_mem (group : List (List String)) :
    ∀ (pool : List CTemplate) (t' : CTemplate),
    (memBuckets t' (claimTemplatesGo group pool).1 →
      keepsTemplate group t' = true ∧ t' ∈ pool) ∧
    (t' ∈ (claimTemplatesGo group pool).2 →
      keepsTemplate group t' = false ∧ t' ∈ pool) := by
  intro pool
  induction pool with
  | nil =>
    intro t'
    constructor
    · intro hmem
      simp [claimTemplatesGo, memBuckets] at hmem
    · intro hmem
      simp [claimTemplatesGo] at hmem
  | cons t rest ih =>
    intro t'
    by_cases hkeep : keepsTemplate group t = true
    · cases hhash : groupHashFunc group t.metadata with
      | none =>
        exfalso
        unfold keepsTemplate at hkeep
        rw [hhash] at hkeep
        exact Bool.noConfusion hkeep
      | some h =>
        have hunf : claimTemplatesGo group (t :: rest)
            = (bucketCons h t (claimTemplatesGo group rest).1,
               (claimTemplatesGo group rest).2) := by
          simp [claimTemplatesGo, hkeep, hhash]
        rw [hunf]
        constructor
        · intro hmem
          rcases (memBuckets_bucketCons t' t h _).mp hmem with he | hm
          · subst he
            exact ⟨hkeep, by simp⟩
          · obtain ⟨hk, hp⟩ := (ih t').1 hm
            exact ⟨hk, by simp [hp]⟩
        · intro hmem
          obtain ⟨hk, hp⟩ := (ih t').2 hmem
          exact ⟨hk, by simp [hp]⟩
    · have hunf : claimTemplatesGo group (t :: rest)
          = ((claimTemplatesGo group rest).1, t :: (claimTemplatesGo group rest).2) := by
        simp [claimTemplatesGo, hkeep]
      rw [hunf]
      constructor
      · intro hmem
        obtain ⟨hk, hp⟩ := (ih t').1 hmem
        exact ⟨hk, by simp [hp]⟩
      · intro hmem
        rcases List.mem_cons.mp hmem with he | hm
        · subst he
          exact ⟨by simpa using hkeep, by simp⟩
        · obtain ⟨hk, hp⟩ := (ih t').2 hm
          exact ⟨hk, by simp [hp]⟩

theorem build_mem_pool :
    ∀ (groups : List (List (List String))) (pool : List CTemplate)
      (fc : FieldCorrelator) (t : CTemplate),
    fc ∈ buildFieldCorrelators groups pool → memBuckets t fc.objects → t ∈ pool := by
  intro groups
  induction groups with
  | nil => intro pool fc t hmem; simp [buildFieldCorrelators] at hmem
  | cons g groups2 ih =>
    intro pool fc t hmem hbuck
    by_cases hskip : (claimTemplatesGo g pool).2.length = pool.length
    · rw [show buildFieldCorrelators (g :: groups2) pool
          = buildFieldCorrelators groups2 pool by
        simp [buildFieldCorrelators, hskip]] at hmem
      exact ih pool fc t hmem hbuck
    · rw [show buildFieldCorrelators (g :: groups2) pool
          = ⟨g, (claimTemplatesGo g pool).1⟩ ::
            buildFieldCorrelators groups2 (claimTemplatesGo g pool).2 by
        simp [buildFieldCorrelators, hskip]] at hmem
      rcases List.mem_cons.mp hmem with he | hm
      · rw [he] at hbuck
        exact ((claimTemplates_mem g pool t).1 hbuck).2
      · have hp2 := ih (claimTemplatesGo g pool).2 fc t hm hbuck
        exact ((claimTemplates_mem g pool t).2 hp2).2

theorem build_pairwise_disjoint :
    ∀ (groups : List (List (List String))) (pool : List CTemplate),
    List.Pairwise (fun fcA fcB => ∀ t, memBuckets t fcA.objects → ¬ memBuckets t fcB.objects)
      (buildFieldCorrelators groups pool) := by
  intro groups
  induction groups with
  | nil => intro pool; simp [buildFieldCorrelators]
  | cons g groups2 ih =>
    intro pool
    by_cases hskip : (claimTemplatesGo g pool).2.length = pool.length
    · rw [show buildFieldCorrelators (g :: groups2) pool
          = buildFieldCorrelators groups2 pool by
        simp [buildFieldCorrelators, hskip]]
      exact ih pool
    · rw [show buildFieldCorrelators (g :: groups2) pool
          = ⟨g, (claimTemplatesGo g pool).1⟩ ::
            buildFieldCorrelators groups2 (claimTemplatesGo g pool).2 by
        simp [buildFieldCorrelators, hskip]]
      refine List.Pairwise.cons ?_ (ih _)
      intro fcB hfcB t hmemA hmemB
      have hkeepA : keepsTemplate g t = true :=
        ((claimTemplates_mem g pool t).1 hmemA).1
      have htB : t ∈ (claimTemplatesGo g pool).2 :=
        build_mem_pool groups2 _ fcB t hfcB hmemB
      have hkeepB : keepsTemplate g t = false :=
        ((claimTemplates_mem g pool t).2 htB).1
      rw [hkeepA] at hkeepB
      exact Bool.noConfusion hkeepB

/-- C2 (amended): for every reference, (a) every hash bucket holding
more than one template is reported by `ValidateTemplates` — the
warning logged by `NewGroupCorrelator`; (b) a resource hashing into
such a bucket receives `MultipleMatches` from that field correlator,
not a match; and (c) a template claimed by one field correlator never
appears in any later (less specific) correlator's index: the duplicate
templates stay claimed by their group and are not eligible via coarser
groups. -/
theorem c2_duplicate_bucket_semantics (groups : List (List (List String)))
    (templates : List CTemplate) :
    (∀ fc ∈ newGroupCorrelator groups templates, ∀ h ts,
        agets fc.objects h = some ts → ts.length > 1 → ts ∈ validateTemplates fc) ∧
    (∀ fc ∈ newGroupCorrelator groups templates, ∀ h ts (r : Val),
        agets fc.objects h = some ts → ts.length > 1 →
        groupHashFunc fc.fields r = some h →
        fieldCorrelatorMatch fc r = .multipleMatches ts) ∧
    List.Pairwise
      (fun fcA fcB => ∀ t, memBuckets t fcA.objects → ¬ memBuckets t fcB.objects)
      (newGroupCorrelator groups templates) := by
  refine ⟨?_, ?_, ?_⟩
  · intro fc _ h ts hget hlen
    have hmem : (h, ts) ∈ fc.objects := agets_mem fc.objects h ts hget
    unfold validateTemplates
    exact List.mem_map.mpr ⟨(h, ts), List.mem_filter.mpr ⟨hmem, by simpa using hlen⟩, rfl⟩
  · intro fc _ h ts r hget hlen hhash
    simp only [fieldCorrelatorMatch, hhash, hget]
    rw [if_pos hlen]
  · exact build_pairwise_disjoint (sortGroupsDesc groups) templates

/-- Witness for the C2 theorem: the duplicate bucket of the concrete
correlator built from `dupGroups` is reported and yields
`MultipleMatches`. -/
theorem c2_duplicate_bucket_semantics_witness :
    fieldCorrelatorMatch dupFC dupResource = .multipleMatches [dupT1, dupT2] := by
  have hmem : dupFC ∈ newGroupCorrelator dupGroups [dupT1, dupT2] := by
    rw [show newGroupCorrelator dupGroups [dupT1, dupT2] = [dupFC] from rfl]
    exact List.mem_cons_self _ _
  exact (c2_duplicate_bucket_semantics dupGroups [dupT1, dupT2]).2.1 dupFC hmem
    "ns_Pod" [dupT1, dupT2] dupResource rfl (by simp [dupT1, dupT2]) rfl

/-- C2 (counterexample): two templates colliding under the most
specific group are claimed by it — the built correlator consists of
that single field correlator, and the coarser group `metadata.name`
(which would tell the templates apart) receives none of them — and a
matching resource gets `MultipleMatches` instead of being resolved
through the coarser group as the claim asserts. -/
theorem c2_duplicates_not_offered_to_coarser_groups :
    newGroupCorrelator dupGroups [dupT1, dupT2] = [dupFC] ∧
    groupCorrelatorMatch (newGroupCorrelator dupGroups [dupT1, dupT2]) dupResource
      = .multipleMatches [dupT1, dupT2] :=
  ⟨rfl, rfl⟩

end KubeCompare
